import Mathlib

/-!
ooxml-checker: signature matching and OLE extraction.

A shallow embedding of `src/ooxml-checker/main.go`.

* Text is a list of Unicode code points (`List Char`), the runes that Go's
  `regexp` package reads from a string.
* The nine patterns of `main.go` only use literal characters, character
  classes, `*` / `*?` applied to a single class and capture groups that are
  not nested.  `Item` is exactly this fragment; `run` is the backtracking
  (leftmost-first) matcher that Go's `regexp` is specified to agree with.
-/

namespace OoxmlChecker

/-! ## Regular expressions -/

/-- The character classes that occur in the patterns of `main.go`. -/
inductive CharClass
  /-- The class `\s`, that is `[\t\n\f\r ]`. -/
  | space
  /-- The class `.`, any character but a line feed. -/
  | dot
  /-- The class `[\/a-z\.A-Z0-9]` of `reBinaryData`. -/
  | partName
  /-- The class `[a-zA-Z0-9/\n\r+=]` of `reBinaryData`. -/
  | payload
deriving DecidableEq, Repr

/-- Whether the code point lies in `[a-zA-Z0-9]`. -/
def isAlnum (c : Char) : Bool :=
  (97 ≤ c.toNat && c.toNat ≤ 122) || (65 ≤ c.toNat && c.toNat ≤ 90) ||
    (48 ≤ c.toNat && c.toNat ≤ 57)

/-- Membership of a character in a class. -/
def CharClass.test : CharClass → Char → Bool
  | .space, c => c.toNat = 9 || c.toNat = 10 || c.toNat = 12 || c.toNat = 13 || c.toNat = 32
  | .dot, c => c.toNat != 10
  | .partName, c => c.toNat = 47 || c.toNat = 46 || isAlnum c
  | .payload, c =>
      isAlnum c || c.toNat = 47 || c.toNat = 10 || c.toNat = 13 || c.toNat = 43 || c.toNat = 61

/-- One element of a pattern. -/
inductive Item
  /-- A literal character. -/
  | chr (c : Char)
  /-- One character of a class. -/
  | cls (k : CharClass)
  /-- The star of a class: `greedy = true` is `k*`, `greedy = false` is `k*?`. -/
  | star (k : CharClass) (greedy : Bool)
  /-- An opening parenthesis of a capture group. -/
  | gopen
  /-- A closing parenthesis of a capture group. -/
  | gclose
deriving DecidableEq, Repr

/-- A pattern is a sequence of items. -/
abbrev Regex := List Item

/-- The literal characters of a string, as a pattern. -/
def lit (s : String) : Regex := s.toList.map Item.chr

/-- The result of a successful match attempt: the end position and the
spans `(start, end)` of the capture groups in the order they closed. -/
abbrev MatchEnd := Nat × List (Nat × Nat)

/-- The lazy star `p*?` followed by the continuation `k`: the continuation is
tried first, one more character is consumed only when it fails. -/
def starLazy (p : Char → Bool) (k : List Char → Nat → Option MatchEnd) :
    List Char → Nat → Option MatchEnd
  | [], pos => k [] pos
  | c :: s, pos =>
    match k (c :: s) pos with
    | some r => some r
    | none => if p c then starLazy p k s (pos + 1) else none

/-- The greedy star `p*` followed by the continuation `k`: one more character
is consumed first, the continuation is tried when that fails. -/
def starGreedy (p : Char → Bool) (k : List Char → Nat → Option MatchEnd) :
    List Char → Nat → Option MatchEnd
  | [], pos => k [] pos
  | c :: s, pos =>
    if p c then
      match starGreedy p k s (pos + 1) with
      | some r => some r
      | none => k (c :: s) pos
    else k (c :: s) pos

/-- The backtracking matcher, anchored at the head of the input: `run re opens
caps s pos` matches `re` against `s`, which starts at index `pos` of the
text; `opens` are the start positions of the groups that are open and `caps`
the spans of the groups already closed. -/
def run : Regex → List Nat → List (Nat × Nat) → List Char → Nat → Option MatchEnd
  | [], _, caps, _, pos => some (pos, caps)
  | .chr c :: re, opens, caps, s, pos =>
    match s with
    | [] => none
    | d :: s' => if d = c then run re opens caps s' (pos + 1) else none
  | .cls k :: re, opens, caps, s, pos =>
    match s with
    | [] => none
    | d :: s' => if k.test d then run re opens caps s' (pos + 1) else none
  | .star k true :: re, opens, caps, s, pos => starGreedy k.test (run re opens caps) s pos
  | .star k false :: re, opens, caps, s, pos => starLazy k.test (run re opens caps) s pos
  | .gopen :: re, opens, caps, s, pos => run re (pos :: opens) caps s pos
  | .gclose :: re, opens, caps, s, pos =>
    match opens with
    | [] => run re [] caps s pos
    | st :: opens' => run re opens' (caps ++ [(st, pos)]) s pos

/-- The substring `text[a:b]`. -/
def slice (text : List Char) (a b : Nat) : List Char := (text.drop a).take (b - a)

/-- The submatch list Go returns for a match `[a, e)` with group spans `caps`:
the whole match followed by the text of every group. -/
def submatch (text : List Char) (a : Nat) (m : MatchEnd) : List (List Char) :=
  slice text a m.1 :: m.2.map (fun g => slice text g.1 g.2)

/-- The loop of `Regexp.allMatches` behind `FindAllStringSubmatch(s, -1)`,
one input position at a time; the result is the list of matches as pairs of
the start position and the outcome of `run` there.  `s` is the text from
index `pos` on; positions below `skip` lie inside the previous match;
`prevEnd` is the end of the previous match.  An attempt at a position is the
leftmost match when every earlier position failed.  A non-empty match moves
the search to its end; an empty match is dropped when it touches the previous
match and the search moves on by one character. -/
def findAllFrom (re : Regex) : List Char → Nat → Nat → Option Nat → List (Nat × MatchEnd)
  | [], pos, skip, prevEnd =>
    if pos < skip then []
    else
      match run re [] [] [] pos with
      | none => []
      | some m => if prevEnd = some pos then [] else [(pos, m)]
  | c :: s, pos, skip, prevEnd =>
    if pos < skip then findAllFrom re s (pos + 1) skip prevEnd
    else
      match run re [] [] (c :: s) pos with
      | none => findAllFrom re s (pos + 1) skip prevEnd
      | some m =>
        if m.1 = pos then
          if prevEnd = some pos then findAllFrom re s (pos + 1) skip (some pos)
          else (pos, m) :: findAllFrom re s (pos + 1) skip (some pos)
        else (pos, m) :: findAllFrom re s (pos + 1) m.1 (some m.1)

/-- The matches of `FindAllStringSubmatchIndex(text, -1)`: start position,
end position and group spans of the successive matches. -/
def findAllIndex (re : Regex) (text : List Char) : List (Nat × MatchEnd) :=
  findAllFrom re text 0 0 none

/-- The model of `regex.FindAllStringSubmatch(text, -1)`. -/
def FindAllStringSubmatch (re : Regex) (text : List Char) : List (List (List Char)) :=
  (findAllIndex re text).map (fun am => submatch text am.1 am.2)

/-! ## The patterns of `main.go` -/

/-- The pattern
`\sType="http:\/\/schemas\.openxmlformats\.org\/officeDocument\/2006\/relationships\/image"\s*?Target="(.*?)"/>`. -/
def reImage : Regex :=
  [.cls .space] ++
  lit "Type=\"http://schemas.openxmlformats.org/officeDocument/2006/relationships/image\"" ++
  [.star .space false] ++ lit "Target=\"" ++ [.gopen, .star .dot false, .gclose] ++ lit "\"/>"

/-- The pattern
`\sType="http:\/\/schemas\.openxmlformats\.org\/officeDocument\/2006\/relationships\/audio"\s*?Target="(.*?)"/>`. -/
def reAudio : Regex :=
  [.cls .space] ++
  lit "Type=\"http://schemas.openxmlformats.org/officeDocument/2006/relationships/audio\"" ++
  [.star .space false] ++ lit "Target=\"" ++ [.gopen, .star .dot false, .gclose] ++ lit "\"/>"

/-- The pattern
`\sType="http:\/\/schemas\.openxmlformats\.org\/officeDocument\/2006\/relationships\/hyperlink"\s*?Target="(.*?)"/>`. -/
def reHyperLink : Regex :=
  [.cls .space] ++
  lit "Type=\"http://schemas.openxmlformats.org/officeDocument/2006/relationships/hyperlink\"" ++
  [.star .space false] ++ lit "Target=\"" ++ [.gopen, .star .dot false, .gclose] ++ lit "\"/>"

/-- The pattern
`(?m)\sType="http://schemas\.microsoft\.com/office/2006/relationships/vbaProject"\s*?Target="(.*?)"/>`;
the flag `(?m)` only changes `^` and `$`, which the pattern does not use. -/
def reVba : Regex :=
  [.cls .space] ++
  lit "Type=\"http://schemas.microsoft.com/office/2006/relationships/vbaProject\"" ++
  [.star .space false] ++ lit "Target=\"" ++ [.gopen, .star .dot false, .gclose] ++ lit "\"/>"

/-- The pattern
`<pkg:part\spkg:name="([\/a-z\.A-Z0-9]*)"\spkg:contentType="application/vnd.ms-office.vbaProject"><pkg:binaryData>([a-zA-Z0-9/\n\r+=]*?)</pkg:binaryData>`;
the two dots of `vnd.ms-office.vbaProject` are not escaped. -/
def reBinaryData : Regex :=
  lit "<pkg:part" ++ [.cls .space] ++ lit "pkg:name=\"" ++
  [.gopen, .star .partName true, .gclose] ++ lit "\"" ++ [.cls .space] ++
  lit "pkg:contentType=\"application/vnd" ++ [.cls .dot] ++ lit "ms-office" ++ [.cls .dot] ++
  lit "vbaProject\"><pkg:binaryData>" ++
  [.gopen, .star .payload false, .gclose] ++ lit "</pkg:binaryData>"

/-- The pattern `<wne:mcd wne:macroName="(.*?)" wne:name="(.*?)"\swne:bEncrypt="(.*?)"`. -/
def reMacro : Regex :=
  lit "<wne:mcd wne:macroName=\"" ++ [.gopen, .star .dot false, .gclose] ++
  lit "\" wne:name=\"" ++ [.gopen, .star .dot false, .gclose] ++ lit "\"" ++ [.cls .space] ++
  lit "wne:bEncrypt=\"" ++ [.gopen, .star .dot false, .gclose] ++ lit "\""

/-- The pattern `ddeService="(.*?)"\sddeTopic="(.*?)">`. -/
def reDde1 : Regex :=
  lit "ddeService=\"" ++ [.gopen, .star .dot false, .gclose] ++ lit "\"" ++ [.cls .space] ++
  lit "ddeTopic=\"" ++ [.gopen, .star .dot false, .gclose] ++ lit "\">"

/-- The pattern `<w:instrText>(.*?DDEAUTO\s.*?)/w:instrText>`. -/
def reDde2 : Regex :=
  lit "<w:instrText>" ++ [.gopen, .star .dot false] ++ lit "DDEAUTO" ++
  [.cls .space, .star .dot false, .gclose] ++ lit "/w:instrText>"

/-- The pattern `<w:instrText>(.*?DDE\s.*?)/w:instrText>`. -/
def reDde3 : Regex :=
  lit "<w:instrText>" ++ [.gopen, .star .dot false] ++ lit "DDE" ++
  [.cls .space, .star .dot false, .gclose] ++ lit "/w:instrText>"

/-- The slice `regexesString` that `main` builds, in the order of the
constants `OOXML_REGEX_IMAGE` .. `OOXML_REGEX_DDE3`. -/
def regexesString : List Regex :=
  [reImage, reAudio, reHyperLink, reVba, reBinaryData, reMacro, reDde1, reDde2, reDde3]

/-! ## Standard library: `path/filepath` on a Unix system -/

/-- The model of `filepath.Base`: the last element of the path, trailing
slashes removed first; `.` for the empty path, `/` for a path of slashes. -/
def Base (path : List Char) : List Char :=
  if path = [] then ['.']
  else
    let stripped := (path.reverse.dropWhile (fun c => c = '/')).reverse
    let last := (stripped.reverse.takeWhile (fun c => c ≠ '/')).reverse
    if last = [] then ['/'] else last

/-- The elements of a path between its slashes. -/
def splitSlash : List Char → List (List Char)
  | [] => [[]]
  | c :: s =>
    if c = '/' then [] :: splitSlash s
    else
      match splitSlash s with
      | [] => [[c]]
      | h :: t => (c :: h) :: t

/-- One element of the path in `filepath.Clean`; `stack` holds the elements
kept so far, the last one first.  Empty elements and `.` are dropped, `..`
removes the element before it, or is kept in a path that is not rooted and
has nothing left to remove. -/
def cleanStep (rooted : Bool) (stack : List (List Char)) (elem : List Char) :
    List (List Char) :=
  if elem = [] ∨ elem = ['.'] then stack
  else if elem = ['.', '.'] then
    match stack with
    | [] => if rooted then [] else [elem]
    | top :: rest => if top = ['.', '.'] then elem :: stack else rest
  else elem :: stack

/-- The elements joined by slashes. -/
def joinSlash : List (List Char) → List Char
  | [] => []
  | [e] => e
  | e :: es => e ++ '/' :: joinSlash es

/-- The model of `filepath.Clean`. -/
def Clean (path : List Char) : List Char :=
  if path = [] then ['.']
  else
    let rooted := path.head? = some '/'
    let body := joinSlash ((splitSlash path).foldl (cleanStep rooted) []).reverse
    let out := if rooted then '/' :: body else body
    if out = [] then ['.'] else out

/-- The model of `filepath.Join` of two elements: the elements from the first
non-empty one on are joined by a slash and cleaned. -/
def Join (a b : List Char) : List Char :=
  if a ≠ [] then Clean (a ++ '/' :: b)
  else if b ≠ [] then Clean b
  else []

/-! ## Standard library: `encoding/base64`, `StdEncoding` -/

/-- A byte. -/
abbrev Byte := Fin 256

/-- The alphabet of `base64.StdEncoding`. -/
def encodeStd : List Char :=
  "ABCDEFGHIJKLMNOPQRSTUVWXYZabcdefghijklmnopqrstuvwxyz0123456789+/".toList

/-- The character of a 6-bit value. -/
def encChar (v : Nat) : Char := encodeStd.getD v 'A'

/-- The model of `StdEncoding.EncodeToString`: three bytes give four
characters, a last group of one or two bytes is padded with `=`. -/
def EncodeToString : List Byte → List Char
  | a :: b :: c :: rest =>
    encChar (a.val / 4) :: encChar (a.val % 4 * 16 + b.val / 16) ::
      encChar (b.val % 16 * 4 + c.val / 64) :: encChar (c.val % 64) :: EncodeToString rest
  | [a, b] =>
    [encChar (a.val / 4), encChar (a.val % 4 * 16 + b.val / 16), encChar (b.val % 16 * 4), '=']
  | [a] => [encChar (a.val / 4), encChar (a.val % 4 * 16), '=', '=']
  | [] => []

/-- The table `decodeMap` of the encoding: the value of a character of the
alphabet, `none` where the table holds `0xff`. -/
def decodeMap (c : Char) : Option Nat :=
  let i := encodeStd.indexOf c
  if i < 64 then some i else none

/-- Whether the character is a carriage return or a line feed. -/
def isNewline (c : Char) : Bool := c.toNat = 10 || c.toNat = 13

/-- The loop `for si < len(src) && (src[si] == '\n' || src[si] == '\r')`. -/
def skipNewlines : List Char → List Char
  | [] => []
  | c :: s => if isNewline c then skipNewlines s else c :: s

/-- The byte `byte(val >> shift)` of the 24-bit value
`d0<<18 | d1<<12 | d2<<6 | d3` of a quantum; the bit fields do not overlap, so
the value is the sum. -/
def quantumByte (d0 d1 d2 d3 : Nat) (shift : Nat) : Byte :=
  ⟨(d0 * 262144 + d1 * 4096 + d2 * 64 + d3) / 2 ^ shift % 256, Nat.mod_lt _ (by decide)⟩

/-- The model of `Encoding.Decode` with `decodeQuantum` inlined, over the
input that is left and the values `dbuf` read for the current quantum.
`none` is a `CorruptInputError`.  Line breaks are skipped everywhere; a
padding character is accepted only as the third and fourth or as the fourth
character of the last quantum; the encoding is not strict, the bits of the
last value that do not fit the output are dropped. -/
def decodeFrom : List Char → List Nat → Option (List Byte)
  | [], dbuf => if dbuf = [] then some [] else none
  | c :: s, dbuf =>
    match decodeMap c with
    | some v =>
      match dbuf with
      | [d0, d1, d2] =>
        (decodeFrom s []).map (fun rest =>
          quantumByte d0 d1 d2 v 16 :: quantumByte d0 d1 d2 v 8 :: quantumByte d0 d1 d2 v 0 :: rest)
      | _ => decodeFrom s (dbuf ++ [v])
    | none =>
      if isNewline c then decodeFrom s dbuf
      else if c ≠ '=' then none
      else
        match dbuf with
        | [d0, d1] =>
          match skipNewlines s with
          | [] => none
          | e :: s' =>
            if e ≠ '=' then none
            else if skipNewlines s' = [] then some [quantumByte d0 d1 0 0 16]
            else none
        | [d0, d1, d2] =>
          if skipNewlines s = [] then some [quantumByte d0 d1 d2 0 16, quantumByte d0 d1 d2 0 8]
          else none
        | _ => none

/-- The model of `base64.StdEncoding.DecodeString`: the bytes, or `none` for
an error. -/
def DecodeString (s : List Char) : Option (List Byte) := decodeFrom s []

/-! ## The environment and the state of a run -/

/-- A directory entry of a compound file as `mscfb` hands it to the caller:
`Name` and `Size` are the fields of `mscfb.File`, `stream` the bytes of the
entry's stream. -/
structure Entry where
  /-- The name of the directory entry. -/
  Name : List Char
  /-- The declared size of the stream. -/
  Size : Nat
  /-- The bytes of the stream. -/
  stream : List Byte

/-- The model of `doc.Read(buf)` on a fresh entry, `n = len(buf)`:
`mscfb` reads `min(len(buf), Size)` bytes of the stream. -/
def Entry.Read (e : Entry) (n : Nat) : List Byte := e.stream.take (min n e.Size)

/-- What the program takes from outside `main.go`: the command line, the
libraries `goutil` and `mscfb`, and the file system's verdict on a write. -/
structure Env where
  /-- The option `options.Output`. -/
  Output : List Char
  /-- The function `util.RemoveIllegalPathCharacters`. -/
  RemoveIllegalPathCharacters : List Char → List Char
  /-- The function `mscfb.New` followed by the iteration `doc.Next()`: the
  directory entries of a compound file, `none` when the bytes are rejected. -/
  mscfbNew : List Byte → Option (List Entry)
  /-- The runes of `string(data)`. -/
  runes : List Byte → List Char
  /-- Whether `ioutil.WriteFile` succeeds on the path. -/
  canWrite : List Char → Bool

/-- The state of a run: the files on disk (the latest write of a path first)
and what was printed (the oldest print first; colour codes and the text of
error values are left out). -/
structure World where
  /-- The files: path and content. -/
  fs : List (List Char × List Byte)
  /-- The printed texts. -/
  out : List (List Char)

/-- A print to the console. -/
def World.print (w : World) (s : List Char) : World := { w with out := w.out ++ [s] }

/-- The content of a file, `none` when there is no such file. -/
def World.read (w : World) (path : List Char) : Option (List Byte) :=
  (w.fs.find? (fun f => f.1 = path)).map (fun f => f.2)

/-- The model of `ioutil.WriteFile`: `none` is an error. -/
def WriteFile (env : Env) (path : List Char) (data : List Byte) (w : World) : Option World :=
  if env.canWrite path then some { w with fs := (path, data) :: w.fs } else none

/-! ## The functions of `main.go` -/

/-- The name of the file `extractOle` writes for a directory entry. -/
def oleFileName (env : Env) (entry : Entry) : List Char :=
  Join env.Output ("ole_".toList ++ env.RemoveIllegalPathCharacters entry.Name)

/-- The body of the loop of `extractOle` for one directory entry. -/
def extractEntry (env : Env) (w : World) (entry : Entry) : World :=
  let buf := entry.Read 512
  if 0 < buf.length then
    match WriteFile env (oleFileName env entry) buf w with
    | none => w.print "Error writing OLE data: ".toList
    | some w' =>
      (w'.print ("Wrote OLE file: ".toList ++ oleFileName env entry)).print
        ("Found OLE entry: ".toList ++ entry.Name)
  else w.print ("Found OLE entry: ".toList ++ entry.Name)

/-- The function `extractOle`. -/
def extractOle (env : Env) (filePath : List Char) (w : World) : World :=
  match w.read filePath with
  | none => w.print "Error opening OLE data: ".toList
  | some data =>
    match env.mscfbNew data with
    | none => w.print "Error parsing OLE data: ".toList
    | some entries => entries.foldl (extractEntry env) w

/-- The function `processOle`. -/
def processOle (env : Env) (files : List (List Char)) (fileName : List Char) (w : World) :
    World :=
  files.foldl (fun w file => if Base file ≠ fileName then w else extractOle env file w) w

/-- The function `processBinaryData`. -/
def processBinaryData (env : Env) (partName data : List Char) (w : World) : World :=
  match DecodeString data with
  | none => w.print "Error base64 decoding binary data: ".toList
  | some temp =>
    let fileName := Join env.Output (env.RemoveIllegalPathCharacters partName)
    match WriteFile env fileName temp w with
    | none => w.print "Error writing base64 decoded binary data: ".toList
    | some w' =>
      extractOle env fileName (w'.print ("Wrote Base64 decoded binary file: ".toList ++ fileName))

/-- The body of the inner loop of `checkFile`: the `switch` on the index `i`
of the pattern, for one match. -/
def handleMatch (env : Env) (files : List (List Char)) (i : Nat) (m : List (List Char))
    (w : World) : World :=
  match i with
  | 0 => w.print ("Found image data: ".toList ++ m.getD 1 [])
  | 1 => w.print ("Found audio data: ".toList ++ m.getD 1 [])
  | 2 => w.print ("Found hyperlink data: ".toList ++ m.getD 1 [])
  | 3 => processOle env files (m.getD 1 []) (w.print ("Found vbaProject data: ".toList ++ m.getD 1 []))
  | 4 =>
    processBinaryData env (m.getD 1 []) (m.getD 2 [])
      (w.print ("Found vbaProject binary data: ".toList ++ m.getD 1 []))
  | 5 =>
    w.print ("Found macro data: Name: ".toList ++ m.getD 1 [] ++ " # MacroName: ".toList ++
      m.getD 2 [] ++ " # bEncrypt: ".toList ++ m.getD 3 [])
  | 6 =>
    w.print ("Found DDE data: Service: ".toList ++ m.getD 1 [] ++ " # Topic: ".toList ++ m.getD 2 [])
  | 7 => w.print ("Found DDE data: ".toList ++ m.getD 1 [])
  | 8 => w.print ("Found DDE data: ".toList ++ m.getD 1 [])
  | _ => w

/-- The two loops of `checkFile` over the text of the file: the patterns in
the order of the slice, the matches of a pattern from left to right. -/
def checkText (env : Env) (files : List (List Char)) (regexes : List Regex)
    (text : List Char) (w : World) : World :=
  regexes.enum.foldl
    (fun w ir => (FindAllStringSubmatch ir.2 text).foldl (fun w m => handleMatch env files ir.1 m w) w)
    w

set_option linter.unusedVariables false in
/-- The function `checkFile`; a file that cannot be read gives the empty
text, as the error of `ioutil.ReadFile` is dropped. -/
def checkFile (env : Env) (files : List (List Char)) (outputPath filePath : List Char)
    (regexes : List Regex) (w : World) : World :=
  let w1 := w.print ("Checking file ".toList ++ filePath)
  let data := (w1.read filePath).getD []
  checkText env files regexes (env.runes data) w1

/-! ## Findings, example inputs and notions used in the statements -/

/-- The pairs (index of the pattern, submatches) that the two loops of
`checkFile` visit, in the order they are visited. -/
def findings (regexes : List Regex) (text : List Char) : List (Nat × List (List Char)) :=
  regexes.enum.flatMap (fun ir => (FindAllStringSubmatch ir.2 text).map (fun m => (ir.1, m)))

/-- A macro declaration element of a Word document. -/
def macroPart : List Char :=
  "<wne:mcd wne:macroName=\"PROJECT.NEWMACROS.AUTOOPEN\" wne:name=\"Project.NewMacros.AutoOpen\" wne:bEncrypt=\"00\" wne:cmg=\"56\"/>".toList

/-- A relationship part whose VBA target has a directory component. -/
def vbaRelsPart : List Char :=
  "<Relationship Id=\"rId1\" Type=\"http://schemas.microsoft.com/office/2006/relationships/vbaProject\" Target=\"/word/vbaProject.bin\"/>".toList

/-- A stream entry of a well-formed container with 513 bytes. -/
def longEntry : Entry :=
  { Name := "WordDocument".toList, Size := 513, stream := List.replicate 513 0 }

/-- The text without its carriage returns and line feeds. -/
def stripNewlines (s : List Char) : List Char := s.filter (fun c => !isNewline c)

/-- Whether the character belongs to the alphabet of the encoding. -/
def isB64 (c : Char) : Bool := (decodeMap c).isSome

/-- The last quantum of a padded encoding: four characters of the alphabet,
or three and one `=`, or two and `==`. -/
def validLast (a b c d : Char) : Bool :=
  isB64 a && isB64 b && ((c == '=' && d == '=') || (isB64 c && (d == '=' || isB64 d)))

/-- Padded standard base64: quanta of four characters of the alphabet, where
the last quantum may end in `=` or `==`. -/
def validStd : List Char → Bool
  | [] => true
  | [a, b, c, d] => validLast a b c d
  | a :: b :: c :: d :: rest => isB64 a && isB64 b && isB64 c && isB64 d && validStd rest
  | _ => false

/-- An environment for the examples: the output directory `out`, names that
pass the sanitiser unchanged, no file accepted as a compound file, the bytes
of a file read as one character each, and every write succeeding. -/
def plainEnv : Env :=
  { Output := "out".toList
    RemoveIllegalPathCharacters := fun s => s
    mscfbNew := fun _ => none
    runes := fun data => data.map (fun x => Char.ofNat x.val)
    canWrite := fun _ => true }

/-- The star of a class followed by `k`, as a yes/no question: is there a
number of characters of the class after which `k` accepts. -/
def acceptsStar (p : Char → Bool) (k : List Char → Bool) : List Char → Bool
  | [] => k []
  | c :: s => k (c :: s) || (p c && acceptsStar p k s)

/-- Whether the pattern matches at the head of the input, in any way. -/
def accepts : Regex → List Char → Bool
  | [], _ => true
  | .chr c :: re, s =>
    match s with
    | [] => false
    | d :: s' => decide (d = c) && accepts re s'
  | .cls k :: re, s =>
    match s with
    | [] => false
    | d :: s' => k.test d && accepts re s'
  | .star k _ :: re, s => acceptsStar k.test (accepts re) s
  | .gopen :: re, s => accepts re s
  | .gclose :: re, s => accepts re s

/-- The star on an input of which only a prefix is known. -/
def mayStar (p : Char → Bool) (k : List Char → Bool) : List Char → Bool
  | [] => true
  | c :: s => k (c :: s) || (p c && mayStar p k s)

/-- Whether the pattern can match at the head of some input that starts with
the given characters: `false` when the match fails inside them. -/
def mayMatch : Regex → List Char → Bool
  | [], _ => true
  | .chr c :: re, s =>
    match s with
    | [] => true
    | d :: s' => decide (d = c) && mayMatch re s'
  | .cls k :: re, s =>
    match s with
    | [] => true
    | d :: s' => k.test d && mayMatch re s'
  | .star k _ :: re, s => mayStar k.test (mayMatch re) s
  | .gopen :: re, s => mayMatch re s
  | .gclose :: re, s => mayMatch re s

/-- The successive matches of a pattern from a position on, in the words of
the documentation of `FindAll`: the first match is the leftmost match at or
after the position, the next ones are the successive matches from its end
on; there is none when no position at or after it matches. -/
inductive Successive (re : Regex) (text : List Char) : Nat → List (Nat × MatchEnd) → Prop
  | done (start : Nat)
      (hnone : ∀ a, start ≤ a → a ≤ text.length → run re [] [] (text.drop a) a = none) :
      Successive re text start []
  | next (start a : Nat) (m : MatchEnd) (rest : List (Nat × MatchEnd))
      (hle : start ≤ a) (hlen : a ≤ text.length)
      (hrun : run re [] [] (text.drop a) a = some m)
      (hfirst : ∀ b, start ≤ b → b < a → run re [] [] (text.drop b) b = none)
      (hpos : a < m.1) (hrest : Successive re text m.1 rest) :
      Successive re text start ((a, m) :: rest)

/-- A pattern that starts with a character or a class has no empty match. -/
def startsWithChar : Regex → Bool
  | .chr _ :: _ => true
  | .cls _ :: _ => true
  | _ => false

/-- The rest of a pattern after its first literal double quote, when every
item before it is one character that is not a double quote. -/
def afterQuote : Regex → Option Regex
  | .chr c :: re => if c = '"' then some re else afterQuote re
  | .cls k :: re => if k.test '"' then none else afterQuote re
  | _ => none

/-- The pattern of a relationship of the type with the attribute text `S`:
`\s`, `S`, `\s*?Target="(.*?)"/>`. -/
def relPattern (S : String) : Regex :=
  [.cls .space] ++ lit S ++ [.star .space false] ++ lit "Target=\"" ++
    [.gopen, .star .dot false, .gclose] ++ lit "\"/>"

/-- A relationship part with one element of type image and the target `t`,
the attribute `Type` written before the attribute `Target`. -/
def imageElement (t : List Char) : List Char :=
  "<Relationship Id=\"rId1\" Type=\"http://schemas.openxmlformats.org/officeDocument/2006/relationships/image\" Target=\"".toList ++ t ++ "\"/>".toList

/-- The text `reImage` matches in `imageElement t`. -/
def imageMatch (t : List Char) : List Char :=
  " Type=\"http://schemas.openxmlformats.org/officeDocument/2006/relationships/image\" Target=\"".toList ++ t ++ "\"/>".toList

/-- A target without double quote and line feed that holds a field
instruction. -/
def instrTarget : List Char := "<w:instrText>DDE x/w:instrText>".toList

/-- The attribute `Type` of a relationship of type image. -/
def typeImage : String :=
  "Type=\"http://schemas.openxmlformats.org/officeDocument/2006/relationships/image\""

/-- The attribute `Type` of a relationship of type audio. -/
def typeAudio : String :=
  "Type=\"http://schemas.openxmlformats.org/officeDocument/2006/relationships/audio\""

/-- The attribute `Type` of a relationship of type hyperlink. -/
def typeHyperlink : String :=
  "Type=\"http://schemas.openxmlformats.org/officeDocument/2006/relationships/hyperlink\""

/-- The attribute `Type` of a relationship of type vbaProject. -/
def typeVba : String :=
  "Type=\"http://schemas.microsoft.com/office/2006/relationships/vbaProject\""

/-- The text of the element from the blank before `Type` on, `Type` written
before `Target`. -/
def relTail (type : String) (t : List Char) : List Char :=
  ' ' :: (type.toList ++ (' ' :: ("Target=\"".toList ++ (t ++ "\"/>".toList))))

/-- A relationship element with the attribute `Type` written before the
attribute `Target`. -/
def relElement (type : String) (t : List Char) : List Char :=
  "<Relationship Id=\"rId1\"".toList ++ relTail type t

/-- The same relationship element with the attribute `Target` written before
the attribute `Type`. -/
def relElementSwapped (type : String) (t : List Char) : List Char :=
  "<Relationship Id=\"rId1\" Target=\"".toList ++ (t ++ '"' :: ' ' :: (type.toList ++ "/>".toList))

/-- The findings of one kind. -/
def findingsOfKind (i : Nat) (text : List Char) : List (Nat × List (List Char)) :=
  (findings regexesString text).filter (fun f => f.1 = i)

/-- A field instruction element with the instruction text `s`. -/
def instrField (s : List Char) : List Char :=
  "<w:instrText>".toList ++ s ++ "</w:instrText>".toList

/-- An instruction text that holds the closing text of the pattern. -/
def instrWithClose : List Char := "DDEAUTO a/w:instrText>b".toList

/-- The instruction text of the scenario of the specification. -/
def calcInstr : List Char := "DDEAUTO c:\\\\windows\\\\system32\\\\cmd.exe \"/c calc.exe\"".toList

/-- A stream named `dir` of a first compound file. -/
def dirA : Entry := { Name := "dir".toList, Size := 3, stream := [1, 2, 3] }

/-- A stream named `dir` of a second compound file. -/
def dirB : Entry := { Name := "dir".toList, Size := 2, stream := [9, 9] }

/-- The matches of a pattern, each with the index of the pattern. -/
def tagged (i : Nat) (re : Regex) (text : List Char) : List (Nat × List (List Char)) :=
  (FindAllStringSubmatch re text).map (fun m => (i, m))

/-- The second state has printed everything the first one has, in the same
order, and possibly more after it. -/
def PrintsMore (w w' : World) : Prop := ∃ extra, w'.out = w.out ++ extra

/-! ## Theorems -/

theorem foldl_flatMap_pairs {α β γ σ : Type} (f : α → List β) (g : α → β → γ)
    (h : σ → γ → σ) (l : List α) (w : σ) :
    (l.flatMap (fun a => (f a).map (g a))).foldl h w =
      l.foldl (fun w a => (f a).foldl (fun w b => h w (g a b)) w) w := by
  induction l generalizing w with
  | nil => rfl
  | cons a l ih => simp [List.flatMap_cons, List.foldl_append, List.foldl_map, ih]

/-- The loops of `checkFile` handle the findings one after the other. -/
theorem checkText_eq_foldl (env : Env) (files : List (List Char)) (regexes : List Regex)
    (text : List Char) (w : World) :
    checkText env files regexes text w =
      (findings regexes text).foldl (fun w f => handleMatch env files f.1 f.2 w) w := by
  unfold checkText findings
  rw [foldl_flatMap_pairs (fun ir : Nat × Regex => FindAllStringSubmatch ir.2 text)
    (fun ir m => (ir.1, m)) (fun w f => handleMatch env files f.1 f.2 w)]

/-! ### C10: the labels of a macro finding -/

set_option maxRecDepth 100000 in
theorem findings_macroPart :
    findings regexesString macroPart =
      [(5, ["<wne:mcd wne:macroName=\"PROJECT.NEWMACROS.AUTOOPEN\" wne:name=\"Project.NewMacros.AutoOpen\" wne:bEncrypt=\"00\"".toList,
            "PROJECT.NEWMACROS.AUTOOPEN".toList, "Project.NewMacros.AutoOpen".toList,
            "00".toList])] := by
  decide

/-- C10 (code bug): for the element with `wne:macroName="PROJECT.NEWMACROS.AUTOOPEN"`
and `wne:name="Project.NewMacros.AutoOpen"`, the only thing `checkFile` prints
for the text puts the value of `wne:macroName` under the label `Name` and the
value of `wne:name` under the label `MacroName`: the labels are exchanged. -/
theorem macro_labels_exchanged (env : Env) (files : List (List Char)) (w : World) :
    checkText env files regexesString macroPart w =
      w.print "Found macro data: Name: PROJECT.NEWMACROS.AUTOOPEN # MacroName: Project.NewMacros.AutoOpen # bEncrypt: 00".toList := by
  rw [checkText_eq_foldl, findings_macroPart]
  rfl

/-! ### C6: the file a VBA target designates -/

theorem Base_slash_free (path : List Char) : Base path = ['/'] ∨ '/' ∉ Base path := by
  unfold Base
  by_cases h : path = []
  · right; simp [h]
  · simp only [h, if_false]
    split
    · left; rfl
    · right
      intro hm
      rw [List.mem_reverse] at hm
      have := List.mem_takeWhile_imp hm
      simp at this

/-- A target that contains a slash, and is not the single slash, is the base
name of no file: `processOle` extracts nothing for it. -/
theorem processOle_of_slash (env : Env) (files : List (List Char)) (fileName : List Char)
    (w : World) (h : '/' ∈ fileName) (h1 : fileName ≠ ['/']) :
    processOle env files fileName w = w := by
  unfold processOle
  induction files with
  | nil => rfl
  | cons f fs ih =>
    have hne : Base f ≠ fileName := by
      intro he
      rcases Base_slash_free f with hb | hb
      · exact h1 (he ▸ hb)
      · exact hb (he ▸ h)
    simp only [List.foldl_cons, hne, ne_eq, not_false_eq_true, if_true]
    exact ih

set_option maxRecDepth 100000 in
theorem findings_vbaRelsPart :
    findings regexesString vbaRelsPart =
      [(3, [" Type=\"http://schemas.microsoft.com/office/2006/relationships/vbaProject\" Target=\"/word/vbaProject.bin\"/>".toList,
            "/word/vbaProject.bin".toList])] := by
  decide

/-- C6 (code bug): the target `/word/vbaProject.bin` is found, the part
`doc/word/vbaProject.bin` it designates is among the unpacked files, and
`processOle` does not extract it: the world only gains the line that reports
the finding. -/
theorem vba_target_with_directory_not_extracted (env : Env) (w : World) :
    checkText env ["doc/word/document.xml".toList, "doc/word/vbaProject.bin".toList]
        regexesString vbaRelsPart w =
      w.print "Found vbaProject data: /word/vbaProject.bin".toList := by
  rw [checkText_eq_foldl, findings_vbaRelsPart]
  simp only [List.foldl_cons, List.foldl_nil, handleMatch]
  exact processOle_of_slash env _ _ _ (by decide) (by decide)

/-! ### C1: the length of an extracted stream -/

/-- What `extractOle` writes for an entry: nothing, or the first
`min 512 Size` bytes of the stream under the entry's file name. -/
theorem extractEntry_fs (env : Env) (w : World) (e : Entry) :
    (extractEntry env w e).fs = w.fs ∨
      (extractEntry env w e).fs = (oleFileName env e, e.stream.take (min 512 e.Size)) :: w.fs := by
  unfold extractEntry WriteFile Entry.Read
  by_cases h1 : 0 < (e.stream.take (min 512 e.Size)).length
  · by_cases h2 : env.canWrite (oleFileName env e) = true
    · right; simp only [h1, h2, if_true]; rfl
    · left; simp only [h1, h2, if_true]; rfl
  · left; simp only [h1, if_false]; rfl

/-- C1 (code bug): for a stream entry whose declared size is 513, with the 513
bytes present, `extractOle` writes nothing or writes a file of 512 bytes: the
written length is never the declared size. -/
theorem extractEntry_truncates (env : Env) (w : World) :
    longEntry.Size = 513 ∧ longEntry.stream.length = longEntry.Size ∧
    ((extractEntry env w longEntry).fs = w.fs ∨
      ∃ data, (extractEntry env w longEntry).fs = (oleFileName env longEntry, data) :: w.fs ∧
        data.length = 512) := by
  refine ⟨rfl, by simp only [longEntry, List.length_replicate], ?_⟩
  rcases extractEntry_fs env w longEntry with h | h
  · exact Or.inl h
  · exact Or.inr ⟨_, h, by simp only [longEntry, List.length_take, List.length_replicate]; decide⟩

/-! ### C2, C3: the base64 payload -/

theorem decodeMap_encChar : ∀ v, v < 64 → decodeMap (encChar v) = some v := by decide

theorem alphabet_plain : ∀ c ∈ encodeStd, isNewline c = false ∧ c ≠ '=' := by decide

theorem decodeMap_some_mem {c : Char} {v : Nat} (h : decodeMap c = some v) : c ∈ encodeStd := by
  unfold decodeMap at h
  by_cases hi : encodeStd.indexOf c < 64
  · exact List.indexOf_lt_length.mp (by simpa [encodeStd] using hi)
  · simp [hi] at h

theorem decodeMap_newline {c : Char} (h : isNewline c = true) : decodeMap c = none := by
  cases hd : decodeMap c with
  | none => rfl
  | some v =>
    have := (alphabet_plain c (decodeMap_some_mem hd)).1
    simp [h] at this

theorem decodeMap_pad : decodeMap '=' = none := by decide

theorem skipNewlines_of_strip_nil : ∀ s, stripNewlines s = [] → skipNewlines s = []
  | [], _ => rfl
  | c :: s, h => by
    by_cases hn : isNewline c = true
    · have h' : stripNewlines s = [] := by simpa [stripNewlines, hn] using h
      simp [skipNewlines, hn, skipNewlines_of_strip_nil s h']
    · simp [stripNewlines, hn] at h

theorem skipNewlines_of_strip_cons : ∀ s e r, stripNewlines s = e :: r →
    ∃ s', skipNewlines s = e :: s' ∧ stripNewlines s' = r
  | [], _, _, h => by simp [stripNewlines] at h
  | c :: s, e, r, h => by
    by_cases hn : isNewline c = true
    · have h' : stripNewlines s = e :: r := by simpa [stripNewlines, hn] using h
      obtain ⟨s', h1, h2⟩ := skipNewlines_of_strip_cons s e r h'
      exact ⟨s', by simp [skipNewlines, hn, h1], h2⟩
    · have h' : c = e ∧ stripNewlines s = r := by simpa [stripNewlines, hn] using h
      obtain ⟨rfl, h2⟩ := h'
      exact ⟨s, by simp [skipNewlines, hn], h2⟩

theorem quantumByte_hi (x y z : Byte) :
    quantumByte (x.val / 4) (x.val % 4 * 16 + y.val / 16) (y.val % 16 * 4 + z.val / 64)
      (z.val % 64) 16 = x := by
  apply Fin.ext
  have := x.isLt; have := y.isLt; have := z.isLt
  simp only [quantumByte]
  omega

theorem quantumByte_mid (x y z : Byte) :
    quantumByte (x.val / 4) (x.val % 4 * 16 + y.val / 16) (y.val % 16 * 4 + z.val / 64)
      (z.val % 64) 8 = y := by
  apply Fin.ext
  have := x.isLt; have := y.isLt; have := z.isLt
  simp only [quantumByte]
  omega

theorem quantumByte_lo (x y z : Byte) :
    quantumByte (x.val / 4) (x.val % 4 * 16 + y.val / 16) (y.val % 16 * 4 + z.val / 64)
      (z.val % 64) 0 = z := by
  apply Fin.ext
  have := x.isLt; have := y.isLt; have := z.isLt
  simp only [quantumByte]
  omega

theorem quantumByte_one (x : Byte) :
    quantumByte (x.val / 4) (x.val % 4 * 16) 0 0 16 = x := by
  apply Fin.ext
  have := x.isLt
  simp only [quantumByte]
  omega

theorem quantumByte_two_hi (x y : Byte) :
    quantumByte (x.val / 4) (x.val % 4 * 16 + y.val / 16) (y.val % 16 * 4) 0 16 = x := by
  apply Fin.ext
  have := x.isLt; have := y.isLt
  simp only [quantumByte]
  omega

theorem quantumByte_two_lo (x y : Byte) :
    quantumByte (x.val / 4) (x.val % 4 * 16 + y.val / 16) (y.val % 16 * 4) 0 8 = y := by
  apply Fin.ext
  have := x.isLt; have := y.isLt
  simp only [quantumByte]
  omega

theorem dm_a (x : Byte) : decodeMap (encChar (x.val / 4)) = some (x.val / 4) :=
  decodeMap_encChar _ (by have := x.isLt; omega)

theorem dm_b (x y : Byte) :
    decodeMap (encChar (x.val % 4 * 16 + y.val / 16)) = some (x.val % 4 * 16 + y.val / 16) :=
  decodeMap_encChar _ (by have := x.isLt; have := y.isLt; omega)

theorem dm_b0 (x : Byte) : decodeMap (encChar (x.val % 4 * 16)) = some (x.val % 4 * 16) :=
  decodeMap_encChar _ (by have := x.isLt; omega)

theorem dm_c (y z : Byte) :
    decodeMap (encChar (y.val % 16 * 4 + z.val / 64)) = some (y.val % 16 * 4 + z.val / 64) :=
  decodeMap_encChar _ (by have := y.isLt; have := z.isLt; omega)

theorem dm_c0 (y : Byte) : decodeMap (encChar (y.val % 16 * 4)) = some (y.val % 16 * 4) :=
  decodeMap_encChar _ (by have := y.isLt; omega)

theorem dm_d (z : Byte) : decodeMap (encChar (z.val % 64)) = some (z.val % 64) :=
  decodeMap_encChar _ (by have := z.isLt; omega)

/-- The decoder, started in the middle of a quantum whose characters `pre`
it has read, returns the bytes whose encoding is `pre` followed by the rest of
the input without its line breaks. -/
theorem decodeFrom_encode : ∀ (s : List Char) (dbuf : List Nat) (pre : List Char)
    (b : List Byte), pre.length < 4 → pre.map decodeMap = dbuf.map some →
    pre ++ stripNewlines s = EncodeToString b → decodeFrom s dbuf = some b := by
  intro s
  induction s with
  | nil =>
    intro dbuf pre b hlen hmap henc
    rcases pre with _ | ⟨p0, _ | ⟨p1, _ | ⟨p2, _ | ⟨p3, pre⟩⟩⟩⟩ <;>
      try (simp only [List.length_cons] at hlen; omega)
    all_goals
      rcases b with _ | ⟨x, _ | ⟨y, _ | ⟨z, b⟩⟩⟩ <;>
        simp [EncodeToString, stripNewlines] at henc
    rcases dbuf with _ | ⟨d, dbuf⟩
    · simp [decodeFrom]
    · simp at hmap
  | cons c s ih =>
    intro dbuf pre b hlen hmap henc
    by_cases hn : isNewline c = true
    · have hs : stripNewlines (c :: s) = stripNewlines s := by simp [stripNewlines, hn]
      rw [hs] at henc
      have := ih dbuf pre b hlen hmap henc
      simp only [decodeFrom, decodeMap_newline hn, hn, if_true]
      exact this
    · have hs : stripNewlines (c :: s) = c :: stripNewlines s := by simp [stripNewlines, hn]
      rw [hs] at henc
      have hnf : isNewline c = false := by simpa using hn
      rcases pre with _ | ⟨p0, _ | ⟨p1, _ | ⟨p2, _ | ⟨p3, pre⟩⟩⟩⟩ <;>
        try (simp only [List.length_cons] at hlen; omega)
      · -- no character of the quantum read so far
        rcases dbuf with _ | ⟨d, dbuf⟩
        · rcases b with _ | ⟨x, _ | ⟨y, _ | ⟨z, b⟩⟩⟩ <;>
            simp [EncodeToString] at henc <;>
            obtain ⟨rfl, h2⟩ := henc <;>
            simp only [decodeFrom, dm_a] <;>
            apply ih _ [encChar (x.val / 4)] <;>
            simp [EncodeToString, dm_a, h2]
        · simp at hmap
      · -- one character read
        rcases dbuf with _ | ⟨d0, _ | ⟨d1, dbuf⟩⟩ <;> simp at hmap
        rcases b with _ | ⟨x, _ | ⟨y, _ | ⟨z, b⟩⟩⟩ <;>
          simp [EncodeToString] at henc <;>
          obtain ⟨rfl, rfl, h2⟩ := henc
        · simp only [decodeFrom, dm_b0]
          apply ih _ [encChar (x.val / 4), encChar (x.val % 4 * 16)] <;>
            simp [EncodeToString, dm_b0, h2, hmap]
        · simp only [decodeFrom, dm_b]
          apply ih _ [encChar (x.val / 4), encChar (x.val % 4 * 16 + y.val / 16)] <;>
            simp [EncodeToString, dm_b, h2, hmap]
        · simp only [decodeFrom, dm_b]
          apply ih _ [encChar (x.val / 4), encChar (x.val % 4 * 16 + y.val / 16)] <;>
            simp [EncodeToString, dm_b, h2, hmap]
      · -- two characters read
        rcases dbuf with _ | ⟨d0, _ | ⟨d1, _ | ⟨d2, dbuf⟩⟩⟩ <;> simp at hmap
        obtain ⟨hm0, hm1⟩ := hmap
        rcases b with _ | ⟨x, _ | ⟨y, _ | ⟨z, b⟩⟩⟩ <;>
          simp [EncodeToString] at henc <;>
          obtain ⟨rfl, rfl, rfl, h2⟩ := henc
        · -- one byte: the padding `==`
          rw [dm_a] at hm0; rw [dm_b0] at hm1
          cases hm0; cases hm1
          obtain ⟨s', h3, h4⟩ := skipNewlines_of_strip_cons s '=' [] h2
          simp [decodeFrom, decodeMap_pad, isNewline, h3, skipNewlines_of_strip_nil s' h4,
            quantumByte_one]
        · simp only [decodeFrom, dm_c0]
          apply ih _ [encChar (x.val / 4), encChar (x.val % 4 * 16 + y.val / 16),
            encChar (y.val % 16 * 4)] <;>
            simp [EncodeToString, dm_c0, h2, hm0, hm1]
        · simp only [decodeFrom, dm_c]
          apply ih _ [encChar (x.val / 4), encChar (x.val % 4 * 16 + y.val / 16),
            encChar (y.val % 16 * 4 + z.val / 64)] <;>
            simp [EncodeToString, dm_c, h2, hm0, hm1]
      · -- three characters read
        rcases dbuf with _ | ⟨d0, _ | ⟨d1, _ | ⟨d2, _ | ⟨d3, dbuf⟩⟩⟩⟩ <;> simp at hmap
        obtain ⟨hm0, hm1, hm2⟩ := hmap
        rcases b with _ | ⟨x, _ | ⟨y, _ | ⟨z, b⟩⟩⟩ <;>
          simp [EncodeToString] at henc <;>
          obtain ⟨rfl, rfl, rfl, rfl, h2⟩ := henc
        · simp [decodeMap_pad] at hm2
        · -- two bytes: the padding `=`
          rw [dm_a] at hm0; rw [dm_b] at hm1; rw [dm_c0] at hm2
          cases hm0; cases hm1; cases hm2
          simp [decodeFrom, decodeMap_pad, isNewline, skipNewlines_of_strip_nil s h2,
            quantumByte_two_hi, quantumByte_two_lo]
        · rw [dm_a] at hm0; rw [dm_b] at hm1; rw [dm_c] at hm2
          cases hm0; cases hm1; cases hm2
          have := ih [] [] b (by simp) (by simp) (by simpa using h2)
          simp [decodeFrom, dm_d, this, quantumByte_hi, quantumByte_mid, quantumByte_lo]

theorem strip_of_skip_nil : ∀ s, skipNewlines s = [] → stripNewlines s = []
  | [], _ => rfl
  | c :: s, h => by
    by_cases hn : isNewline c = true
    · have h' : skipNewlines s = [] := by simpa [skipNewlines, hn] using h
      have := strip_of_skip_nil s h'
      simpa [stripNewlines, hn] using this
    · simp [skipNewlines, hn] at h

theorem strip_of_skip_cons : ∀ s e s', skipNewlines s = e :: s' →
    stripNewlines s = e :: stripNewlines s'
  | [], _, _, h => by simp [skipNewlines] at h
  | c :: s, e, s', h => by
    by_cases hn : isNewline c = true
    · have h' : skipNewlines s = e :: s' := by simpa [skipNewlines, hn] using h
      have := strip_of_skip_cons s e s' h'
      simpa [stripNewlines, hn] using this
    · have h' : c = e ∧ s = s' := by simpa [skipNewlines, hn] using h
      obtain ⟨rfl, rfl⟩ := h'
      simp [stripNewlines, hn]

theorem validStd_quantum (a b c d : Char) (rest : List Char) (ha : isB64 a = true)
    (hb : isB64 b = true) (hc : isB64 c = true) (hd : isB64 d = true) :
    validStd (a :: b :: c :: d :: rest) = validStd rest := by
  cases rest with
  | nil => simp [validStd, validLast, ha, hb, hc, hd]
  | cons e rest => simp [validStd, ha, hb, hc, hd]

/-- Whatever the decoder accepts is padded standard base64 once the line
breaks are removed. -/
theorem decodeFrom_valid : ∀ (s : List Char) (dbuf : List Nat) (pre : List Char)
    (out : List Byte), pre.length = dbuf.length → pre.length < 4 →
    (∀ c ∈ pre, isB64 c = true) → decodeFrom s dbuf = some out →
    validStd (pre ++ stripNewlines s) = true := by
  intro s
  induction s with
  | nil =>
    intro dbuf pre out hl hlen hpre hdec
    rcases dbuf with _ | ⟨d, dbuf⟩
    · have : pre = [] := List.eq_nil_of_length_eq_zero (by simpa using hl)
      subst this
      rfl
    · simp [decodeFrom] at hdec
  | cons c s ih =>
    intro dbuf pre out hl hlen hpre hdec
    by_cases hn : isNewline c = true
    · have hs : stripNewlines (c :: s) = stripNewlines s := by simp [stripNewlines, hn]
      rw [hs]
      simp only [decodeFrom, decodeMap_newline hn, hn, if_true] at hdec
      exact ih dbuf pre out hl hlen hpre hdec
    · have hs : stripNewlines (c :: s) = c :: stripNewlines s := by simp [stripNewlines, hn]
      rw [hs]
      have hnf : isNewline c = false := by simpa using hn
      cases hdm : decodeMap c with
      | some v =>
        have hc : isB64 c = true := by simp [isB64, hdm]
        rcases pre with _ | ⟨p0, _ | ⟨p1, _ | ⟨p2, _ | ⟨p3, pre⟩⟩⟩⟩ <;>
          try (simp only [List.length_cons] at hlen; omega)
        · rcases dbuf with _ | ⟨d0, dbuf⟩ <;> simp at hl
          simp only [decodeFrom, hdm] at hdec
          exact ih _ [c] out (by simp) (by simp) (by simpa using hc) hdec
        · rcases dbuf with _ | ⟨d0, _ | ⟨d1, dbuf⟩⟩ <;> simp at hl
          simp only [decodeFrom, hdm] at hdec
          exact ih _ [p0, c] out (by simp) (by simp) (by simpa [hc] using hpre) hdec
        · rcases dbuf with _ | ⟨d0, _ | ⟨d1, _ | ⟨d2, dbuf⟩⟩⟩ <;> simp at hl
          simp only [decodeFrom, hdm] at hdec
          exact ih _ [p0, p1, c] out (by simp) (by simp) (by simpa [hc] using hpre) hdec
        · rcases dbuf with _ | ⟨d0, _ | ⟨d1, _ | ⟨d2, _ | ⟨d3, dbuf⟩⟩⟩⟩ <;> simp at hl
          simp only [decodeFrom, hdm, Option.map_eq_some'] at hdec
          obtain ⟨rest, hrest, -⟩ := hdec
          have := ih [] [] rest rfl (by simp) (by simp) hrest
          simp only [List.mem_cons, List.mem_singleton, forall_eq_or_imp, forall_eq,
            List.not_mem_nil, false_implies, implies_true, and_true] at hpre
          simp only [List.cons_append, List.nil_append]
          rw [validStd_quantum _ _ _ _ _ hpre.1 hpre.2.1 hpre.2.2 hc]
          simpa using this
      | none =>
        by_cases hp : c = '='
        · subst hp
          rcases pre with _ | ⟨p0, _ | ⟨p1, _ | ⟨p2, _ | ⟨p3, pre⟩⟩⟩⟩ <;>
            try (simp only [List.length_cons] at hlen; omega)
          · rcases dbuf with _ | ⟨d0, dbuf⟩ <;> simp at hl
            simp [decodeFrom, hdm, hnf] at hdec
          · rcases dbuf with _ | ⟨d0, _ | ⟨d1, dbuf⟩⟩ <;> simp at hl
            simp [decodeFrom, hdm, hnf] at hdec
          · rcases dbuf with _ | ⟨d0, _ | ⟨d1, _ | ⟨d2, dbuf⟩⟩⟩ <;> simp at hl
            simp only [decodeFrom, hdm, hnf] at hdec
            cases hsk : skipNewlines s with
            | nil => simp [hsk] at hdec
            | cons e s' =>
              simp only [hsk] at hdec
              by_cases he : e = '='
              · subst he
                by_cases hs' : skipNewlines s' = []
                · rw [strip_of_skip_cons s _ s' hsk, strip_of_skip_nil s' hs']
                  simp only [List.mem_cons, List.mem_singleton, forall_eq_or_imp, forall_eq,
                    List.not_mem_nil, false_implies, implies_true, and_true] at hpre
                  simp [validStd, validLast, hpre.1, hpre.2]
                · simp [hs'] at hdec
              · simp [he] at hdec
          · rcases dbuf with _ | ⟨d0, _ | ⟨d1, _ | ⟨d2, _ | ⟨d3, dbuf⟩⟩⟩⟩ <;> simp at hl
            simp only [decodeFrom, hdm, hnf] at hdec
            by_cases hs' : skipNewlines s = []
            · rw [strip_of_skip_nil s hs']
              simp only [List.mem_cons, List.mem_singleton, forall_eq_or_imp, forall_eq,
                List.not_mem_nil, false_implies, implies_true, and_true] at hpre
              simp [validStd, validLast, hpre.1, hpre.2.1, hpre.2.2]
            · simp [hs'] at hdec
        · simp [decodeFrom, hdm, hnf, hp] at hdec

/-- The decoder accepts every payload that is padded standard base64 once the
line breaks are removed. -/
theorem decodeFrom_of_valid : ∀ (s : List Char) (dbuf : List Nat) (pre : List Char),
    pre.length = dbuf.length → pre.length < 4 → (∀ c ∈ pre, isB64 c = true) →
    validStd (pre ++ stripNewlines s) = true → (decodeFrom s dbuf).isSome = true := by
  intro s
  induction s with
  | nil =>
    intro dbuf pre hl hlen hpre hv
    rcases pre with _ | ⟨p0, _ | ⟨p1, _ | ⟨p2, _ | ⟨p3, pre⟩⟩⟩⟩ <;>
      try (simp only [List.length_cons] at hlen; omega)
    · rcases dbuf with _ | ⟨d0, dbuf⟩ <;> simp at hl
      simp [decodeFrom]
    · simp [stripNewlines, validStd] at hv
    · simp [stripNewlines, validStd] at hv
    · simp [stripNewlines, validStd] at hv
  | cons c s ih =>
    intro dbuf pre hl hlen hpre hv
    by_cases hn : isNewline c = true
    · have hs : stripNewlines (c :: s) = stripNewlines s := by simp [stripNewlines, hn]
      rw [hs] at hv
      simp only [decodeFrom, decodeMap_newline hn, hn, if_true]
      exact ih dbuf pre hl hlen hpre hv
    · have hs : stripNewlines (c :: s) = c :: stripNewlines s := by simp [stripNewlines, hn]
      rw [hs] at hv
      have hnf : isNewline c = false := by simpa using hn
      cases hdm : decodeMap c with
      | some v =>
        have hc : isB64 c = true := by simp [isB64, hdm]
        rcases pre with _ | ⟨p0, _ | ⟨p1, _ | ⟨p2, _ | ⟨p3, pre⟩⟩⟩⟩ <;>
          try (simp only [List.length_cons] at hlen; omega)
        · rcases dbuf with _ | ⟨d0, dbuf⟩ <;> simp at hl
          simp only [decodeFrom, hdm]
          exact ih _ [c] (by simp) (by simp) (by simpa using hc) (by simpa using hv)
        · rcases dbuf with _ | ⟨d0, _ | ⟨d1, dbuf⟩⟩ <;> simp at hl
          simp only [decodeFrom, hdm]
          exact ih _ [p0, c] (by simp) (by simp) (by simpa [hc] using hpre) (by simpa using hv)
        · rcases dbuf with _ | ⟨d0, _ | ⟨d1, _ | ⟨d2, dbuf⟩⟩⟩ <;> simp at hl
          simp only [decodeFrom, hdm]
          exact ih _ [p0, p1, c] (by simp) (by simp) (by simpa [hc] using hpre)
            (by simpa using hv)
        · rcases dbuf with _ | ⟨d0, _ | ⟨d1, _ | ⟨d2, _ | ⟨d3, dbuf⟩⟩⟩⟩ <;> simp at hl
          simp only [List.mem_cons, List.mem_singleton, forall_eq_or_imp, forall_eq,
            List.not_mem_nil, false_implies, implies_true, and_true] at hpre
          simp only [List.cons_append, List.nil_append] at hv
          rw [validStd_quantum _ _ _ _ _ hpre.1 hpre.2.1 hpre.2.2 hc] at hv
          have := ih [] [] rfl (by simp) (by simp) (by simpa using hv)
          simp only [decodeFrom, hdm, Option.isSome_map']
          exact this
      | none =>
        have hc : isB64 c = false := by simp [isB64, hdm]
        rcases pre with _ | ⟨p0, _ | ⟨p1, _ | ⟨p2, _ | ⟨p3, pre⟩⟩⟩⟩ <;>
          try (simp only [List.length_cons] at hlen; omega)
        · rcases hr : stripNewlines s with _ | ⟨r0, _ | ⟨r1, _ | ⟨r2, _ | ⟨r3, r⟩⟩⟩⟩ <;>
            simp [hr, validStd, validLast, hc] at hv
        · rcases hr : stripNewlines s with _ | ⟨r0, _ | ⟨r1, _ | ⟨r2, r⟩⟩⟩ <;>
            simp [hr, validStd, validLast, hc] at hv
        · rcases dbuf with _ | ⟨d0, _ | ⟨d1, _ | ⟨d2, dbuf⟩⟩⟩ <;> simp at hl
          rcases hr : stripNewlines s with _ | ⟨r0, _ | ⟨r1, r⟩⟩ <;>
            simp [hr, validStd, validLast, hc] at hv
          obtain ⟨-, rfl, rfl⟩ := hv
          obtain ⟨s', h3, h4⟩ := skipNewlines_of_strip_cons s '=' [] hr
          simp [decodeFrom, hdm, hnf, h3, skipNewlines_of_strip_nil s' h4]
        · rcases dbuf with _ | ⟨d0, _ | ⟨d1, _ | ⟨d2, _ | ⟨d3, dbuf⟩⟩⟩⟩ <;> simp at hl
          rcases hr : stripNewlines s with _ | ⟨r0, r⟩ <;>
            simp [hr, validStd, validLast, hc] at hv
          have hce : c = '=' := by
            rcases hv.2 with h | h
            · exact h.2
            · exact h.2
          subst hce
          simp [decodeFrom, hdm, hnf, skipNewlines_of_strip_nil s hr]

/-- The payloads `DecodeString` accepts are exactly those that are padded
standard base64 once their carriage returns and line feeds are removed. -/
theorem DecodeString_isSome (s : List Char) :
    (DecodeString s).isSome = validStd (stripNewlines s) := by
  cases hv : validStd (stripNewlines s) with
  | true => exact decodeFrom_of_valid s [] [] rfl (by simp) (by simp) (by simpa using hv)
  | false =>
    cases hd : DecodeString s with
    | none => rfl
    | some out =>
      have := decodeFrom_valid s [] [] out rfl (by simp) (by simp) hd
      simp [hv] at this

/-- C2: when the payload, its carriage returns and line feeds removed, is the
padded standard encoding of the bytes `b`, and the file system accepts the
write, then `processBinaryData` decodes exactly `b`, writes `b` under the
sanitised part name in the output directory, reports it, and goes on with
`extractOle` on that file, whose content is `b`. -/
theorem processBinaryData_roundtrip (env : Env) (partName payload : List Char)
    (b : List Byte) (w : World)
    (henc : stripNewlines payload = EncodeToString b)
    (hw : env.canWrite (Join env.Output (env.RemoveIllegalPathCharacters partName)) = true) :
    DecodeString payload = some b ∧
    processBinaryData env partName payload w =
      extractOle env (Join env.Output (env.RemoveIllegalPathCharacters partName))
        { fs := (Join env.Output (env.RemoveIllegalPathCharacters partName), b) :: w.fs
          out := w.out ++ ["Wrote Base64 decoded binary file: ".toList ++
            Join env.Output (env.RemoveIllegalPathCharacters partName)] } ∧
    World.read
        { fs := (Join env.Output (env.RemoveIllegalPathCharacters partName), b) :: w.fs
          out := w.out ++ ["Wrote Base64 decoded binary file: ".toList ++
            Join env.Output (env.RemoveIllegalPathCharacters partName)] }
        (Join env.Output (env.RemoveIllegalPathCharacters partName)) = some b := by
  have hdec : DecodeString payload = some b :=
    decodeFrom_encode payload [] [] b (by simp) (by simp) (by simpa using henc)
  refine ⟨hdec, ?_, ?_⟩
  · simp only [processBinaryData, hdec, WriteFile, hw, if_true, World.print]
  · simp [World.read]

/-- C2 (witness): the payload `AQID`, a line break, `BP8=` is the encoding of
the bytes 1, 2, 3, 4, 255. -/
theorem processBinaryData_roundtrip_witness :
    stripNewlines "AQID\r\nBP8=".toList = EncodeToString [1, 2, 3, 4, 255] ∧
    plainEnv.canWrite (Join plainEnv.Output
      (plainEnv.RemoveIllegalPathCharacters "vbaProject.bin".toList)) = true ∧
    DecodeString "AQID\r\nBP8=".toList = some [1, 2, 3, 4, 255] :=
  ⟨by decide, rfl,
    (processBinaryData_roundtrip plainEnv "vbaProject.bin".toList "AQID\r\nBP8=".toList
      [1, 2, 3, 4, 255] ⟨[], []⟩ (by decide) rfl).1⟩

/-- C3: when the payload, its carriage returns and line feeds removed, is not
padded standard base64, `processBinaryData` stops at the decoding step: the
world only gains the report of the error (no file is written, `extractOle` is
not reached), and the loop of `checkFile` goes on with the findings that
follow. -/
theorem processBinaryData_invalid (env : Env) (partName payload : List Char) (w : World)
    (h : validStd (stripNewlines payload) = false) :
    DecodeString payload = none ∧
    processBinaryData env partName payload w =
      w.print "Error base64 decoding binary data: ".toList ∧
    (processBinaryData env partName payload w).fs = w.fs ∧
    ∀ (files : List (List Char)) (whole : List Char) (rest : List (Nat × List (List Char))),
      ((4, [whole, partName, payload]) :: rest).foldl
          (fun w f => handleMatch env files f.1 f.2 w) w =
        rest.foldl (fun w f => handleMatch env files f.1 f.2 w)
          ((w.print ("Found vbaProject binary data: ".toList ++ partName)).print
            "Error base64 decoding binary data: ".toList) := by
  have hdec : DecodeString payload = none := by
    cases hd : DecodeString payload with
    | none => rfl
    | some out =>
      have := decodeFrom_valid payload [] [] out rfl (by simp) (by simp) hd
      simp [h] at this
  have hp : ∀ w : World, processBinaryData env partName payload w =
      w.print "Error base64 decoding binary data: ".toList := by
    intro w
    simp only [processBinaryData, hdec]
  refine ⟨hdec, hp w, by rw [hp]; rfl, ?_⟩
  intro files whole rest
  simp only [List.foldl_cons, handleMatch, List.getD_cons_succ, List.getD_cons_zero, hp]

/-- C3 (witness): the payload `QUJD*` is not base64. -/
theorem processBinaryData_invalid_witness :
    validStd (stripNewlines "QUJD*".toList) = false ∧
    DecodeString "QUJD*".toList = none :=
  ⟨by decide,
    (processBinaryData_invalid plainEnv "vbaProject.bin".toList "QUJD*".toList ⟨[], []⟩
      (by decide)).1⟩

/-! ### The matcher and the loop of FindAll -/

theorem starLazy_isSome (p : Char → Bool) (k : List Char → Nat → Option MatchEnd)
    (k' : List Char → Bool) (hk : ∀ s pos, (k s pos).isSome = k' s) :
    ∀ s pos, (starLazy p k s pos).isSome = acceptsStar p k' s
  | [], pos => by simp [starLazy, acceptsStar, hk]
  | c :: s, pos => by
    have ih := starLazy_isSome p k k' hk s (pos + 1)
    have h1 := hk (c :: s) pos
    simp only [starLazy, acceptsStar]
    cases hkc : k (c :: s) pos with
    | some r =>
      have h2 : k' (c :: s) = true := by rw [← h1, hkc]; rfl
      simp [h2]
    | none =>
      have h2 : k' (c :: s) = false := by rw [← h1, hkc]; rfl
      by_cases hp : p c = true
      · simp [hp, h2, ih]
      · simp [hp, h2]

theorem starGreedy_isSome (p : Char → Bool) (k : List Char → Nat → Option MatchEnd)
    (k' : List Char → Bool) (hk : ∀ s pos, (k s pos).isSome = k' s) :
    ∀ s pos, (starGreedy p k s pos).isSome = acceptsStar p k' s
  | [], pos => by simp [starGreedy, acceptsStar, hk]
  | c :: s, pos => by
    have ih := starGreedy_isSome p k k' hk s (pos + 1)
    have h1 := hk (c :: s) pos
    simp only [starGreedy, acceptsStar]
    by_cases hp : p c = true
    · simp only [hp, if_true, Bool.true_and]
      cases hg : starGreedy p k s (pos + 1) with
      | some r =>
        have h2 : acceptsStar p k' s = true := by rw [← ih, hg]; rfl
        simp [h2]
      | none =>
        have h2 : acceptsStar p k' s = false := by rw [← ih, hg]; rfl
        simp [h2, h1]
    · simp [hp, h1]

/-- The matcher succeeds exactly when the pattern is accepted. -/
theorem run_isSome : ∀ (re : Regex) (opens : List Nat) (caps : List (Nat × Nat))
    (s : List Char) (pos : Nat), (run re opens caps s pos).isSome = accepts re s
  | [], _, _, _, _ => by simp [run, accepts]
  | .chr c :: re, opens, caps, s, pos => by
    cases s with
    | nil => simp [run, accepts]
    | cons d s =>
      by_cases h : d = c
      · simp [run, accepts, h, run_isSome re]
      · simp [run, accepts, h]
  | .cls k :: re, opens, caps, s, pos => by
    cases s with
    | nil => simp [run, accepts]
    | cons d s =>
      by_cases h : k.test d = true
      · simp [run, accepts, h, run_isSome re]
      · simp [run, accepts, h]
  | .star k true :: re, opens, caps, s, pos => by
    simp only [run, accepts]
    exact starGreedy_isSome _ _ _ (fun s pos => run_isSome re opens caps s pos) s pos
  | .star k false :: re, opens, caps, s, pos => by
    simp only [run, accepts]
    exact starLazy_isSome _ _ _ (fun s pos => run_isSome re opens caps s pos) s pos
  | .gopen :: re, opens, caps, s, pos => by simp [run, accepts, run_isSome re]
  | .gclose :: re, opens, caps, s, pos => by
    cases opens <;> simp [run, accepts, run_isSome re]

theorem run_eq_none {re : Regex} {s : List Char} (h : accepts re s = false)
    (opens : List Nat) (caps : List (Nat × Nat)) (pos : Nat) : run re opens caps s pos = none := by
  have := run_isSome re opens caps s pos
  rw [h] at this
  simpa using this

theorem mayStar_false (p : Char → Bool) (k k' : List Char → Bool)
    (hk : ∀ a rest, k a = false → k' (a ++ rest) = false) :
    ∀ a rest, mayStar p k a = false → acceptsStar p k' (a ++ rest) = false
  | [], _, h => by simp [mayStar] at h
  | c :: a, rest, h => by
    simp only [mayStar, Bool.or_eq_false_iff, Bool.and_eq_false_iff] at h
    simp only [List.cons_append, acceptsStar, Bool.or_eq_false_iff, Bool.and_eq_false_iff]
    refine ⟨hk (c :: a) rest h.1, ?_⟩
    rcases h.2 with h2 | h2
    · exact Or.inl h2
    · exact Or.inr (mayStar_false p k k' hk a rest h2)

/-- When the match fails inside the known prefix, it fails on every input
with that prefix. -/
theorem accepts_of_mayMatch_false : ∀ (re : Regex) (a rest : List Char),
    mayMatch re a = false → accepts re (a ++ rest) = false
  | [], _, _, h => by simp [mayMatch] at h
  | .chr c :: re, a, rest, h => by
    cases a with
    | nil => simp [mayMatch] at h
    | cons d a =>
      simp only [mayMatch, Bool.and_eq_false_iff] at h
      simp only [List.cons_append, accepts, Bool.and_eq_false_iff]
      rcases h with h | h
      · exact Or.inl h
      · exact Or.inr (accepts_of_mayMatch_false re a rest h)
  | .cls k :: re, a, rest, h => by
    cases a with
    | nil => simp [mayMatch] at h
    | cons d a =>
      simp only [mayMatch, Bool.and_eq_false_iff] at h
      simp only [List.cons_append, accepts, Bool.and_eq_false_iff]
      rcases h with h | h
      · exact Or.inl h
      · exact Or.inr (accepts_of_mayMatch_false re a rest h)
  | .star k g :: re, a, rest, h => by
    simp only [mayMatch] at h
    simp only [accepts]
    exact mayStar_false _ _ _ (fun a rest h => accepts_of_mayMatch_false re a rest h) a rest h
  | .gopen :: re, a, rest, h => by
    simp only [mayMatch] at h
    simp only [accepts]
    exact accepts_of_mayMatch_false re a rest h
  | .gclose :: re, a, rest, h => by
    simp only [mayMatch] at h
    simp only [accepts]
    exact accepts_of_mayMatch_false re a rest h

theorem starLazy_pos_le (p : Char → Bool) (k : List Char → Nat → Option MatchEnd)
    (hk : ∀ s pos m, k s pos = some m → pos ≤ m.1) :
    ∀ s pos m, starLazy p k s pos = some m → pos ≤ m.1
  | [], pos, m, h => hk [] pos m (by simpa [starLazy] using h)
  | c :: s, pos, m, h => by
    simp only [starLazy] at h
    cases hkc : k (c :: s) pos with
    | some r =>
      rw [hkc] at h
      cases h
      exact hk _ _ _ hkc
    | none =>
      rw [hkc] at h
      by_cases hp : p c = true
      · simp only [hp, if_true] at h
        have := starLazy_pos_le p k hk s (pos + 1) m h
        omega
      · simp [hp] at h

theorem starGreedy_pos_le (p : Char → Bool) (k : List Char → Nat → Option MatchEnd)
    (hk : ∀ s pos m, k s pos = some m → pos ≤ m.1) :
    ∀ s pos m, starGreedy p k s pos = some m → pos ≤ m.1
  | [], pos, m, h => hk [] pos m (by simpa [starGreedy] using h)
  | c :: s, pos, m, h => by
    simp only [starGreedy] at h
    by_cases hp : p c = true
    · simp only [hp, if_true] at h
      cases hg : starGreedy p k s (pos + 1) with
      | some r =>
        rw [hg] at h
        simp only [Option.some.injEq] at h
        subst h
        have := starGreedy_pos_le p k hk s (pos + 1) r hg
        omega
      | none =>
        rw [hg] at h
        exact hk _ _ _ h
    · simp only [hp] at h
      exact hk _ _ _ h

/-- A match never ends before the position it starts at. -/
theorem run_pos_le : ∀ (re : Regex) (opens : List Nat) (caps : List (Nat × Nat))
    (s : List Char) (pos : Nat) (m : MatchEnd), run re opens caps s pos = some m → pos ≤ m.1
  | [], _, _, _, _, m, h => by
    simp only [run, Option.some.injEq] at h
    subst h
    exact Nat.le_refl _
  | .chr c :: re, opens, caps, s, pos, m, h => by
    cases s with
    | nil => simp [run] at h
    | cons d s =>
      by_cases hd : d = c
      · simp only [run, hd, if_true] at h
        have := run_pos_le re _ _ _ _ _ h
        omega
      · simp [run, hd] at h
  | .cls k :: re, opens, caps, s, pos, m, h => by
    cases s with
    | nil => simp [run] at h
    | cons d s =>
      by_cases hd : k.test d = true
      · simp only [run, hd, if_true] at h
        have := run_pos_le re _ _ _ _ _ h
        omega
      · simp [run, hd] at h
  | .star k true :: re, opens, caps, s, pos, m, h => by
    simp only [run] at h
    exact starGreedy_pos_le _ _ (fun s pos m h => run_pos_le re opens caps s pos m h) s pos m h
  | .star k false :: re, opens, caps, s, pos, m, h => by
    simp only [run] at h
    exact starLazy_pos_le _ _ (fun s pos m h => run_pos_le re opens caps s pos m h) s pos m h
  | .gopen :: re, opens, caps, s, pos, m, h => by
    simp only [run] at h
    exact run_pos_le re _ _ _ _ _ h
  | .gclose :: re, opens, caps, s, pos, m, h => by
    cases opens with
    | nil => simp only [run] at h; exact run_pos_le re _ _ _ _ _ h
    | cons st opens => simp only [run] at h; exact run_pos_le re _ _ _ _ _ h

theorem run_pos_lt {re : Regex} (hre : startsWithChar re = true) (opens : List Nat)
    (caps : List (Nat × Nat)) (s : List Char) (pos : Nat) (m : MatchEnd)
    (h : run re opens caps s pos = some m) : pos < m.1 := by
  rcases re with _ | ⟨_ | _ | _ | _ | _, re⟩ <;> simp [startsWithChar] at hre
  · cases s with
    | nil => simp [run] at h
    | cons d s =>
      simp only [run] at h
      split at h
      · have := run_pos_le re _ _ _ _ _ h; omega
      · cases h
  · cases s with
    | nil => simp [run] at h
    | cons d s =>
      simp only [run] at h
      split at h
      · have := run_pos_le re _ _ _ _ _ h; omega
      · cases h

theorem accepts_nil_of_startsWithChar {re : Regex} (hre : startsWithChar re = true) :
    accepts re [] = false := by
  rcases re with _ | ⟨_ | _ | _ | _ | _, re⟩ <;> simp [startsWithChar] at hre <;> simp [accepts]

theorem findAllFrom_none (re : Regex) : ∀ (s : List Char) (pos skip : Nat) (prev : Option Nat),
    (∀ j, accepts re (s.drop j) = false) → findAllFrom re s pos skip prev = []
  | [], pos, skip, prev, h => by
    have := run_eq_none (h 0) [] [] pos
    simp only [List.drop_nil] at this
    simp [findAllFrom, this]
  | c :: s, pos, skip, prev, h => by
    have h0 := run_eq_none (h 0) [] [] pos
    simp only [List.drop_zero] at h0
    have ih := fun sk => findAllFrom_none re s (pos + 1) sk prev (fun j => by simpa using h (j + 1))
    simp [findAllFrom, h0, ih]

theorem findAllFrom_skipped (re : Regex) (hre : accepts re [] = false) :
    ∀ (s : List Char) (pos skip : Nat) (prev : Option Nat), pos + s.length ≤ skip →
    findAllFrom re s pos skip prev = []
  | [], pos, skip, prev, _ => by
    simp [findAllFrom, run_eq_none hre]
  | c :: s, pos, skip, prev, h => by
    have h1 : pos < skip := by simp only [List.length_cons] at h; omega
    simp only [findAllFrom, h1, if_true]
    exact findAllFrom_skipped re hre s (pos + 1) skip prev (by simp only [List.length_cons] at h; omega)

/-- One match that reaches the end of the text, nothing before it. -/
theorem findAllFrom_one (re : Regex) (hre : accepts re [] = false) (M : List Char) (hM : M ≠ []) :
    ∀ (P : List Char) (pos skip : Nat) (prev : Option Nat) (m : MatchEnd), skip ≤ pos →
    (∀ i, i < P.length → accepts re (P.drop i ++ M) = false) →
    run re [] [] M (pos + P.length) = some m → m.1 = pos + P.length + M.length →
    findAllFrom re (P ++ M) pos skip prev = [(pos + P.length, m)]
  | [], pos, skip, prev, m, hs, _, hrun, hend => by
    cases M with
    | nil => exact absurd rfl hM
    | cons c s =>
      simp only [List.length_nil, Nat.add_zero, List.length_cons] at hrun hend
      have h1 : ¬ pos < skip := by omega
      have h2 : m.1 ≠ pos := by omega
      simp only [List.nil_append, findAllFrom, h1, if_false, hrun, h2, List.length_nil,
        Nat.add_zero]
      rw [findAllFrom_skipped re hre s (pos + 1) m.1 _ (by omega)]
  | c :: P, pos, skip, prev, m, hs, hP, hrun, hend => by
    have h0 := run_eq_none (by simpa using hP 0 (by simp)) [] [] pos
    have h1 : ¬ pos < skip := by omega
    have e : findAllFrom re (c :: (P ++ M)) pos skip prev =
        findAllFrom re (P ++ M) (pos + 1) skip prev := by
      simp only [findAllFrom, h1, if_false, h0]
    show findAllFrom re (c :: (P ++ M)) pos skip prev = _
    rw [e]
    have := findAllFrom_one re hre M hM P (pos + 1) skip prev m (by omega)
      (fun i hi => by simpa using hP (i + 1) (by simpa using hi))
      (by simpa [Nat.add_assoc, Nat.add_comm 1] using hrun)
      (by simp only [List.length_cons] at hend; omega)
    rw [this]
    simp only [List.length_cons]
    congr 2
    omega

/-- Every match the loop reports is the outcome of the matcher at its start
position, which is a position of the input. -/
theorem findAllFrom_sound (re : Regex) : ∀ (s : List Char) (pos skip : Nat) (prev : Option Nat)
    (a : Nat) (m : MatchEnd), (a, m) ∈ findAllFrom re s pos skip prev →
    ∃ j, a = pos + j ∧ j ≤ s.length ∧ run re [] [] (s.drop j) a = some m
  | [], pos, skip, prev, a, m, h => by
    simp only [findAllFrom] at h
    split at h
    · simp at h
    · split at h
      · simp at h
      · rename_i m' hrun
        split at h
        · simp at h
        · simp only [List.mem_singleton, Prod.mk.injEq] at h
          obtain ⟨rfl, rfl⟩ := h
          exact ⟨0, rfl, Nat.le_refl _, hrun⟩
  | c :: s, pos, skip, prev, a, m, h => by
    have ih := fun sk pv h => findAllFrom_sound re s (pos + 1) sk pv a m h
    have lift : (∃ j, a = pos + 1 + j ∧ j ≤ s.length ∧ run re [] [] (s.drop j) a = some m) →
        ∃ j, a = pos + j ∧ j ≤ (c :: s).length ∧ run re [] [] ((c :: s).drop j) a = some m := by
      rintro ⟨j, h1, h2, h3⟩
      exact ⟨j + 1, by omega, by simp only [List.length_cons]; omega, by simpa using h3⟩
    simp only [findAllFrom] at h
    split at h
    · exact lift (ih _ _ h)
    · split at h
      · exact lift (ih _ _ h)
      · rename_i m' hrun
        split at h
        · split at h
          · exact lift (ih _ _ h)
          · rcases List.mem_cons.mp h with h | h
            · simp only [Prod.mk.injEq] at h
              obtain ⟨rfl, rfl⟩ := h
              exact ⟨0, rfl, Nat.zero_le _, hrun⟩
            · exact lift (ih _ _ h)
        · rcases List.mem_cons.mp h with h | h
          · simp only [Prod.mk.injEq] at h
            obtain ⟨rfl, rfl⟩ := h
            exact ⟨0, rfl, Nat.zero_le _, hrun⟩
          · exact lift (ih _ _ h)

/-- Every reported match is a match of the text at its start position. -/
theorem findAllIndex_sound (re : Regex) (text : List Char) (a : Nat) (m : MatchEnd)
    (h : (a, m) ∈ findAllIndex re text) :
    a ≤ text.length ∧ run re [] [] (text.drop a) a = some m := by
  obtain ⟨j, h1, h2, h3⟩ := findAllFrom_sound re text 0 0 none a m h
  have : a = j := by omega
  subst this
  exact ⟨h2, h3⟩

/-- An occurrence of the pattern is reported, or lies inside a reported match
that starts before it. -/
theorem findAllFrom_complete (re : Regex) (hre : startsWithChar re = true) :
    ∀ (s : List Char) (pos skip : Nat) (prev : Option Nat) (j : Nat), skip ≤ pos + j →
    accepts re (s.drop j) = true →
    ∃ a m, (a, m) ∈ findAllFrom re s pos skip prev ∧ a ≤ pos + j ∧ pos + j < m.1
  | [], pos, skip, prev, j, _, hacc => by
    simp [accepts_nil_of_startsWithChar hre] at hacc
  | c :: s, pos, skip, prev, j, hskip, hacc => by
    have step : ∀ sk pv, sk ≤ pos + j → 0 < j →
        ∃ a m, (a, m) ∈ findAllFrom re s (pos + 1) sk pv ∧ a ≤ pos + j ∧ pos + j < m.1 := by
      intro sk pv hsk hj
      obtain ⟨j', rfl⟩ : ∃ j', j = j' + 1 := ⟨j - 1, by omega⟩
      obtain ⟨a, m, h1, h2, h3⟩ := findAllFrom_complete re hre s (pos + 1) sk pv j' (by omega)
        (by simpa using hacc)
      exact ⟨a, m, h1, by omega, by omega⟩
    simp only [findAllFrom]
    split
    · exact step _ _ hskip (by omega)
    · split
      · rename_i hrun
        have hj : 0 < j := by
          rcases Nat.eq_zero_or_pos j with h0 | h0
          · subst h0
            have := run_isSome re [] [] (c :: s) pos
            simp only [List.drop_zero] at hacc
            rw [hrun, hacc] at this
            simp at this
          · exact h0
        exact step _ _ hskip hj
      · rename_i m hrun
        have hlt := run_pos_lt hre _ _ _ _ _ hrun
        have hne : m.1 ≠ pos := by omega
        simp only [hne, if_false]
        by_cases hin : pos + j < m.1
        · exact ⟨pos, m, List.mem_cons_self _ _, by omega, hin⟩
        · obtain ⟨a, m', h1, h2, h3⟩ := step m.1 (some m.1) (by omega) (by omega)
          exact ⟨a, m', List.mem_cons_of_mem _ h1, h2, h3⟩

/-- An occurrence of the pattern in the text is reported, or lies inside a
reported match that starts before it. -/
theorem findAllIndex_complete (re : Regex) (hre : startsWithChar re = true) (text : List Char)
    (j : Nat) (hacc : accepts re (text.drop j) = true) :
    ∃ a m, (a, m) ∈ findAllIndex re text ∧ a ≤ j ∧ j < m.1 := by
  obtain ⟨a, m, h1, h2, h3⟩ := findAllFrom_complete re hre text 0 0 none j (by omega) hacc
  exact ⟨a, m, h1, by omega, by omega⟩

theorem Successive.weaken {re : Regex} {text : List Char} {start : Nat}
    {l : List (Nat × MatchEnd)} (h : Successive re text (start + 1) l)
    (hnone : run re [] [] (text.drop start) start = none) : Successive re text start l := by
  cases h with
  | done _ hn =>
    refine .done _ (fun a h1 h2 => ?_)
    rcases Nat.eq_or_lt_of_le h1 with h | h
    · subst h; exact hnone
    · exact hn a h h2
  | next _ a m rest hle hlen hrun hfirst hpos hrest =>
    refine .next _ a m rest (by omega) hlen hrun (fun b h1 h2 => ?_) hpos hrest
    rcases Nat.eq_or_lt_of_le h1 with h | h
    · subst h; exact hnone
    · exact hfirst b h h2

/-- The loop computes the successive matches. -/
theorem findAllFrom_successive (re : Regex) (hre : startsWithChar re = true) (text : List Char) :
    ∀ (s : List Char) (pos skip : Nat) (prev : Option Nat), s = text.drop pos →
    pos ≤ text.length →
    Successive re text (max pos skip) (findAllFrom re s pos skip prev)
  | [], pos, skip, prev, hs, hpos => by
    have hlen : pos = text.length := by
      have := congrArg List.length hs
      simp only [List.length_nil, List.length_drop] at this
      omega
    have hrun : ∀ p, run re [] [] [] p = none :=
      fun p => run_eq_none (accepts_nil_of_startsWithChar hre) [] [] p
    simp only [findAllFrom, hrun, ite_self]
    refine .done _ (fun a h1 h2 => ?_)
    have : a = pos := by
      have := Nat.le_max_left pos skip
      omega
    subst this
    rw [← hs]
    exact hrun _
  | c :: s, pos, skip, prev, hs, hpos => by
    have hlt : pos < text.length := by
      have := congrArg List.length hs
      simp only [List.length_cons, List.length_drop] at this
      omega
    have hs' : s = text.drop (pos + 1) := by
      have := congrArg List.tail hs
      simpa [List.tail_drop] using this
    have ih := fun sk pv => findAllFrom_successive re hre text s (pos + 1) sk pv hs' hlt
    simp only [findAllFrom]
    split
    · rename_i h
      have e : max pos skip = max (pos + 1) skip := by omega
      rw [e]
      exact ih _ _
    · rename_i h
      have e : max pos skip = pos := by omega
      rw [e]
      split
      · rename_i hrun
        have := ih skip prev
        have e2 : max (pos + 1) skip = pos + 1 := by omega
        rw [e2] at this
        exact this.weaken (by rw [← hs]; exact hrun)
      · rename_i m hrun
        have hp := run_pos_lt hre _ _ _ _ _ hrun
        have hne : m.1 ≠ pos := by omega
        simp only [hne, if_false]
        have := ih m.1 (some m.1)
        have e2 : max (pos + 1) m.1 = m.1 := by omega
        rw [e2] at this
        exact .next _ pos m _ (Nat.le_refl _) (by omega) (by rw [← hs]; exact hrun)
          (fun b h1 h2 => by omega) hp this

/-- The matches `FindAll` reports are the successive matches of the text. -/
theorem findAllIndex_successive (re : Regex) (hre : startsWithChar re = true) (text : List Char) :
    Successive re text 0 (findAllIndex re text) := by
  have := findAllFrom_successive re hre text text 0 0 none (by simp) (Nat.zero_le _)
  simpa using this

theorem accepts_chars (L : List Char) (re : Regex) :
    ∀ s, accepts (L.map Item.chr ++ re) s = (L.isPrefixOf s && accepts re (s.drop L.length)) := by
  induction L with
  | nil => intro s; simp
  | cons a L ih =>
    intro s
    rw [List.map_cons, List.cons_append]
    cases s with
    | nil => simp [accepts]
    | cons d s =>
      simp only [accepts, ih, List.isPrefixOf, List.length_cons, List.drop_succ_cons]
      by_cases h : d = a
      · simp [h]
      · have : a ≠ d := fun e => h e.symm
        simp [h, this]

theorem run_chars_append (L : List Char) (re : Regex) (opens : List Nat)
    (caps : List (Nat × Nat)) (s : List Char) :
    ∀ pos, run (L.map Item.chr ++ re) opens caps (L ++ s) pos =
      run re opens caps s (pos + L.length) := by
  induction L with
  | nil => intro pos; simp
  | cons a L ih =>
    intro pos
    rw [List.map_cons, List.cons_append, List.cons_append]
    simp only [run, if_true, ih, List.length_cons]
    congr 1
    omega

theorem run_chars_some (L : List Char) (re : Regex) (opens : List Nat)
    (caps : List (Nat × Nat)) :
    ∀ (x : List Char) (pos : Nat) (m : MatchEnd),
      run (L.map Item.chr ++ re) opens caps x pos = some m →
      ∃ x', x = L ++ x' ∧ run re opens caps x' (pos + L.length) = some m := by
  induction L with
  | nil => intro x pos m h; exact ⟨x, rfl, by simpa using h⟩
  | cons a L ih =>
    intro x pos m h
    rw [List.map_cons, List.cons_append] at h
    cases x with
    | nil => simp [run] at h
    | cons d x =>
      simp only [run] at h
      by_cases hd : d = a
      · simp only [hd, if_true] at h
        obtain ⟨x', h1, h2⟩ := ih x (pos + 1) m h
        refine ⟨x', by rw [hd, h1]; rfl, ?_⟩
        rw [← h2]
        congr 1
        simp only [List.length_cons]
        omega
      · simp [hd] at h

theorem starLazy_hit (p : Char → Bool) (k : List Char → Nat → Option MatchEnd)
    (s : List Char) (pos : Nat) (m : MatchEnd) (h : k s pos = some m) :
    starLazy p k s pos = some m := by
  cases s with
  | nil => simpa [starLazy] using h
  | cons c s => simp [starLazy, h]

theorem starLazy_skip (p : Char → Bool) (k : List Char → Nat → Option MatchEnd)
    (s : List Char) :
    ∀ (t : List Char) (pos : Nat), (∀ c ∈ t, p c = true) →
      (∀ i, i < t.length → k (t.drop i ++ s) (pos + i) = none) →
      starLazy p k (t ++ s) pos = starLazy p k s (pos + t.length)
  | [], pos, _, _ => by simp
  | c :: t, pos, hp, hk => by
    have h0 := hk 0 (by simp)
    simp only [List.drop_zero, Nat.add_zero, List.cons_append] at h0
    have hc := hp c (List.mem_cons_self _ _)
    rw [List.cons_append]
    simp only [starLazy, h0, hc, if_true]
    rw [starLazy_skip p k s t (pos + 1) (fun c h => hp c (List.mem_cons_of_mem _ h))
      (fun i hi => by
        have := hk (i + 1) (by simpa using hi)
        simpa [Nat.add_assoc, Nat.add_comm 1] using this)]
    congr 1
    simp only [List.length_cons]
    omega

theorem starLazy_some (p : Char → Bool) (k : List Char → Nat → Option MatchEnd) :
    ∀ (x : List Char) (pos : Nat) (m : MatchEnd), starLazy p k x pos = some m →
      ∃ n, n ≤ x.length ∧ (∀ c ∈ x.take n, p c = true) ∧ k (x.drop n) (pos + n) = some m
  | [], pos, m, h => ⟨0, Nat.le_refl _, by simp, by simpa [starLazy] using h⟩
  | c :: x, pos, m, h => by
    simp only [starLazy] at h
    cases hk : k (c :: x) pos with
    | some r =>
      rw [hk] at h
      simp only [Option.some.injEq] at h
      subst h
      exact ⟨0, Nat.zero_le _, by simp, by simpa using hk⟩
    | none =>
      rw [hk] at h
      by_cases hp : p c = true
      · simp only [hp, if_true] at h
        obtain ⟨n, h1, h2, h3⟩ := starLazy_some p k x (pos + 1) m h
        refine ⟨n + 1, by simp only [List.length_cons]; omega, ?_, ?_⟩
        · intro d hd
          simp only [List.take_succ_cons, List.mem_cons] at hd
          rcases hd with rfl | hd
          · exact hp
          · exact h2 d hd
        · simpa [Nat.add_assoc, Nat.add_comm 1] using h3
      · simp [hp] at h

theorem acceptsStar_append (p : Char → Bool) (k : List Char → Bool) (s : List Char)
    (hk : k s = true) : ∀ t : List Char, (∀ c ∈ t, p c = true) → acceptsStar p k (t ++ s) = true
  | [], _ => by
    cases s with
    | nil => simpa [acceptsStar] using hk
    | cons c s => simp [acceptsStar, hk]
  | c :: t, hp => by
    rw [List.cons_append]
    simp only [acceptsStar, hp c (List.mem_cons_self _ _), Bool.true_and,
      acceptsStar_append p k s hk t (fun c h => hp c (List.mem_cons_of_mem _ h)), Bool.or_true]

/-- When the input has no double quote before the one at the end of `u`, the
first literal double quote of the pattern is matched against that one. -/
theorem accepts_afterQuote : ∀ (re rest : Regex), afterQuote re = some rest →
    ∀ (u r : List Char), '"' ∉ u → accepts re (u ++ '"' :: r) = true → accepts rest r = true
  | [], _, h, _, _, _, _ => by simp [afterQuote] at h
  | .chr c :: re, rest, h, u, r, hu, hacc => by
    simp only [afterQuote] at h
    cases u with
    | nil =>
      simp only [List.nil_append, accepts, Bool.and_eq_true, decide_eq_true_eq] at hacc
      rw [← hacc.1] at h
      simp only [if_true, Option.some.injEq] at h
      rw [← h]
      exact hacc.2
    | cons d u =>
      rw [List.cons_append] at hacc
      simp only [accepts, Bool.and_eq_true, decide_eq_true_eq] at hacc
      have hd : d ≠ '"' := fun e => hu (e ▸ List.mem_cons_self _ _)
      have hc : c ≠ '"' := fun e => hd (hacc.1.trans e)
      simp only [hc, if_false] at h
      exact accepts_afterQuote re rest h u r (fun hm => hu (List.mem_cons_of_mem _ hm)) hacc.2
  | .cls k :: re, rest, h, u, r, hu, hacc => by
    simp only [afterQuote] at h
    by_cases hk : k.test '"' = true
    · simp [hk] at h
    · simp only [hk] at h
      cases u with
      | nil =>
        simp only [List.nil_append, accepts, Bool.and_eq_true] at hacc
        exact absurd hacc.1 hk
      | cons d u =>
        rw [List.cons_append] at hacc
        simp only [accepts, Bool.and_eq_true] at hacc
        exact accepts_afterQuote re rest h u r (fun hm => hu (List.mem_cons_of_mem _ hm)) hacc.2
  | .star _ _ :: _, _, h, _, _, _, _ => by simp [afterQuote] at h
  | .gopen :: _, _, h, _, _, _, _ => by simp [afterQuote] at h
  | .gclose :: _, _, h, _, _, _, _ => by simp [afterQuote] at h

theorem prefix_of_append_not_mem {q : Char} : ∀ (L u v : List Char), q ∉ L →
    L <+: u ++ q :: v → L <+: u
  | [], _, _, _, _ => List.nil_prefix
  | a :: L, [], v, hq, h => by
    simp only [List.nil_append] at h
    have := List.cons_prefix_cons.mp h
    exact absurd (this.1 ▸ List.mem_cons_self _ _) hq
  | a :: L, b :: u, v, hq, h => by
    simp only [List.cons_append] at h
    have := List.cons_prefix_cons.mp h
    exact List.cons_prefix_cons.mpr ⟨this.1,
      prefix_of_append_not_mem L u v (fun hm => hq (List.mem_cons_of_mem _ hm)) this.2⟩

/-- A pattern that starts with literal characters without a double quote
matches nowhere in a text `u"...` whose part `u` does not contain them. -/
theorem accepts_chars_false (L : List Char) (re : Regex) (hL : '"' ∉ L) (t u r : List Char)
    (ht : ¬ L <:+: t) (hu : u <:+ t) : accepts (L.map Item.chr ++ re) (u ++ '"' :: r) = false := by
  rw [accepts_chars]
  have : L.isPrefixOf (u ++ '"' :: r) = false := by
    cases h : L.isPrefixOf (u ++ '"' :: r) with
    | false => rfl
    | true =>
      have hp : L <+: u ++ '"' :: r := List.isPrefixOf_iff_prefix.mp h
      have := prefix_of_append_not_mem L u r hL hp
      exact absurd (List.IsInfix.trans this.isInfix hu.isInfix) ht
  simp [this]

/-- No match anywhere in a text of three parts: the match fails inside the
first part, on every end of the middle part followed by the last part, and in
the last part. -/
theorem accepts_three_parts (re : Regex) (A t B : List Char)
    (hA : ∀ i, i < A.length → mayMatch re (A.drop i) = false)
    (ht : ∀ u, u <:+ t → accepts re (u ++ B) = false)
    (hB : ∀ i, i ≤ B.length → accepts re (B.drop i) = false) :
    ∀ j, accepts re ((A ++ (t ++ B)).drop j) = false := by
  intro j
  by_cases h1 : j < A.length
  · rw [List.drop_append_of_le_length (by omega)]
    exact accepts_of_mayMatch_false re _ _ (hA j h1)
  · rw [List.drop_append_eq_append_drop, List.drop_of_length_le (by omega), List.nil_append]
    by_cases h2 : j - A.length ≤ t.length
    · rw [List.drop_append_of_le_length h2]
      exact ht _ (List.drop_suffix _ _)
    · rw [List.drop_append_eq_append_drop, List.drop_of_length_le (by omega), List.nil_append]
      by_cases h3 : j - A.length - t.length ≤ B.length
      · exact hB _ h3
      · rw [List.drop_of_length_le (by omega)]
        have := hB B.length (Nat.le_refl _)
        simpa using this

theorem slice_middle (X Y Z : List Char) (a b : Nat) (ha : a = X.length)
    (hb : b = X.length + Y.length) : slice (X ++ (Y ++ Z)) a b = Y := by
  subst ha hb
  simp [slice]

theorem char_eq_of_toNat {c d : Char} (h : c.toNat = d.toNat) : c = d := by
  rw [← Char.ofNat_toNat c, ← Char.ofNat_toNat d, h]

theorem dot_test_of_ne {c : Char} (h : c ≠ '\n') : CharClass.dot.test c = true := by
  simp only [CharClass.test, bne_iff_ne, ne_eq]
  exact fun e => h (char_eq_of_toNat e)

theorem dot_test_all {t : List Char} (h : '\n' ∉ t) : ∀ c ∈ t, CharClass.dot.test c = true := by
  intro c hc
  exact dot_test_of_ne (fun e => h (e ▸ hc))

theorem accepts_quote_tail (re : Regex) (t s : List Char) (ht : '"' ∉ t) (i : Nat)
    (hi : i < t.length) (opens : List Nat) (caps : List (Nat × Nat)) (pos : Nat) :
    run (.gclose :: .chr '"' :: re) opens caps (t.drop i ++ s) pos = none := by
  apply run_eq_none
  rw [List.drop_eq_getElem_cons hi, List.cons_append]
  have : t[i] ≠ '"' := fun e => ht (e ▸ List.getElem_mem hi)
  simp [accepts, this]

theorem run_cls_cons (k : CharClass) (re : Regex) (opens : List Nat) (caps : List (Nat × Nat))
    (d : Char) (s : List Char) (pos : Nat) :
    run (.cls k :: re) opens caps (d :: s) pos =
      if k.test d then run re opens caps s (pos + 1) else none := by
  simp only [run]

theorem run_star_lazy (k : CharClass) (re : Regex) (opens : List Nat) (caps : List (Nat × Nat))
    (s : List Char) (pos : Nat) :
    run (.star k false :: re) opens caps s pos = starLazy k.test (run re opens caps) s pos := by
  simp only [run]

theorem run_gopen (re : Regex) (opens : List Nat) (caps : List (Nat × Nat))
    (s : List Char) (pos : Nat) :
    run (.gopen :: re) opens caps s pos = run re (pos :: opens) caps s pos := by
  simp only [run]

theorem run_gclose (re : Regex) (st : Nat) (opens : List Nat) (caps : List (Nat × Nat))
    (s : List Char) (pos : Nat) :
    run (.gclose :: re) (st :: opens) caps s pos = run re opens (caps ++ [(st, pos)]) s pos := by
  simp only [run]

theorem run_nil (opens : List Nat) (caps : List (Nat × Nat)) (s : List Char) (pos : Nat) :
    run [] opens caps s pos = some (pos, caps) := by
  simp only [run]

theorem starLazy_cons_none (p : Char → Bool) (k : List Char → Nat → Option MatchEnd)
    (c : Char) (s : List Char) (pos : Nat) (hk : k (c :: s) pos = none) (hp : p c = true) :
    starLazy p k (c :: s) pos = starLazy p k s (pos + 1) := by
  simp only [starLazy, hk, hp, if_true]

theorem relPattern_eq (S : String) :
    relPattern S = .cls .space :: (S.toList.map .chr ++ (.star .space false ::
      ("Target=\"".toList.map .chr ++ (.gopen :: .star .dot false :: .gclose ::
        ("\"/>".toList.map .chr ++ []))))) := by
  simp [relPattern, lit]

/-- The relationship pattern matches an element tail ` S Target="t"/>` from
its blank to its end and captures `t`, when `t` has no double quote and no
line feed. -/
theorem run_relPattern (S : String) (t : List Char) (hq : '"' ∉ t) (hn : '\n' ∉ t) (pos : Nat) :
    run (relPattern S) [] []
        (' ' :: (S.toList ++ (' ' :: ("Target=\"".toList ++ (t ++ "\"/>".toList))))) pos =
      some (pos + 1 + S.toList.length + 1 + 8 + t.length + 3,
        [(pos + 1 + S.toList.length + 1 + 8, pos + 1 + S.toList.length + 1 + 8 + t.length)]) := by
  have hsp : CharClass.space.test ' ' = true := by decide
  have hk0 : ∀ (rest : List Char) (p : Nat),
      run ("Target=\"".toList.map .chr ++ (.gopen :: .star .dot false :: .gclose ::
        ("\"/>".toList.map .chr ++ []))) [] [] (' ' :: rest) p = none := by
    intro rest p
    apply run_eq_none
    exact accepts_of_mayMatch_false _ [' '] rest (by decide)
  have hB : "\"/>".toList.map Item.chr ++ [] = [.chr '"', .chr '/', .chr '>'] := by simp
  have e : "\"/>".toList = "\"/>".toList ++ [] := by simp
  rw [relPattern_eq, run_cls_cons, if_pos hsp, run_chars_append, run_star_lazy,
    starLazy_cons_none _ _ _ _ _ (hk0 _ _) hsp]
  apply starLazy_hit
  rw [run_chars_append, run_gopen, run_star_lazy,
    starLazy_skip _ _ _ t _ (dot_test_all hn)
      (fun i hi => by rw [hB]; exact accepts_quote_tail _ t _ hq i hi _ _ _)]
  apply starLazy_hit
  rw [run_gclose]
  conv => lhs; arg 4; rw [e]
  rw [run_chars_append, run_nil]
  simp [Nat.add_assoc]

/-- The relationship pattern finds the element tail ` S Target="t"/>` after a
text `P` in which it does not match, and nothing else. -/
theorem findAllIndex_relPattern (S : String) (P t : List Char) (hq : '"' ∉ t) (hn : '\n' ∉ t)
    (hP : ∀ i, i < P.length → mayMatch (relPattern S) (P.drop i) = false) :
    FindAllStringSubmatch (relPattern S)
        (P ++ (' ' :: (S.toList ++ (' ' :: ("Target=\"".toList ++ (t ++ "\"/>".toList)))))) =
      [[' ' :: (S.toList ++ (' ' :: ("Target=\"".toList ++ (t ++ "\"/>".toList)))), t]] := by
  have hre : accepts (relPattern S) [] = false := by simp [relPattern, accepts]
  have hrun := run_relPattern S t hq hn (0 + P.length)
  have hone := findAllFrom_one (relPattern S) hre
    (' ' :: (S.toList ++ (' ' :: ("Target=\"".toList ++ (t ++ "\"/>".toList))))) (by simp)
    P 0 0 none _ (Nat.le_refl _)
    (fun i hi => accepts_of_mayMatch_false _ _ _ (hP i hi)) hrun
    (by simp; omega)
  simp only [FindAllStringSubmatch, findAllIndex, hone, List.map_cons, List.map_nil, submatch]
  have h1 : slice (P ++ (' ' :: (S.toList ++ (' ' :: ("Target=\"".toList ++ (t ++ "\"/>".toList))))))
      (0 + P.length) (0 + P.length + 1 + S.toList.length + 1 + 8 + t.length + 3) =
      ' ' :: (S.toList ++ (' ' :: ("Target=\"".toList ++ (t ++ "\"/>".toList)))) := by
    have := slice_middle P
      (' ' :: (S.toList ++ (' ' :: ("Target=\"".toList ++ (t ++ "\"/>".toList))))) []
      (0 + P.length) (0 + P.length + 1 + S.toList.length + 1 + 8 + t.length + 3) (by omega)
      (by simp; omega)
    rw [List.append_nil] at this
    exact this
  have h2 : slice (P ++ (' ' :: (S.toList ++ (' ' :: ("Target=\"".toList ++ (t ++ "\"/>".toList))))))
      (0 + P.length + 1 + S.toList.length + 1 + 8)
      (0 + P.length + 1 + S.toList.length + 1 + 8 + t.length) = t := by
    have := slice_middle (P ++ (' ' :: (S.toList ++ (' ' :: "Target=\"".toList)))) t "\"/>".toList
      (0 + P.length + 1 + S.toList.length + 1 + 8)
      (0 + P.length + 1 + S.toList.length + 1 + 8 + t.length) (by simp; omega) (by simp; omega)
    simp only [List.append_assoc, List.cons_append] at this
    exact this
  rw [h1, h2]

theorem findAll_none_of_quote (re rest : Regex) (A t r : List Char) (hq : '"' ∉ t)
    (haq : afterQuote re = some rest) (hrest : accepts rest r = false)
    (hA : ∀ i, i < A.length → mayMatch re (A.drop i) = false)
    (hB : ∀ i, i ≤ r.length + 1 → accepts re (('"' :: r).drop i) = false) :
    FindAllStringSubmatch re (A ++ (t ++ '"' :: r)) = [] := by
  have := findAllFrom_none re (A ++ (t ++ '"' :: r)) 0 0 none
    (accepts_three_parts re A t _ hA (fun u hu => by
      cases h : accepts re (u ++ '"' :: r) with
      | false => rfl
      | true =>
        have := accepts_afterQuote re rest haq u r (fun hm => hq (hu.subset hm)) h
        rw [hrest] at this
        cases this) hB)
  simp [FindAllStringSubmatch, findAllIndex, this]

theorem findAll_none_of_chars (L : List Char) (re : Regex) (A t : List Char)
    (hL : '"' ∉ L) (ht : ¬ L <:+: t)
    (hA : ∀ i, i < A.length → mayMatch (L.map Item.chr ++ re) (A.drop i) = false)
    (hB : ∀ i, i ≤ 3 → accepts (L.map Item.chr ++ re) (['"', '/', '>'].drop i) = false) :
    FindAllStringSubmatch (L.map Item.chr ++ re) (A ++ (t ++ ['"', '/', '>'])) = [] := by
  have := findAllFrom_none (L.map Item.chr ++ re) (A ++ (t ++ ['"', '/', '>'])) 0 0 none
    (accepts_three_parts _ A t _ hA
      (fun u hu => accepts_chars_false L re hL t u ['/', '>'] ht hu) hB)
  simp [FindAllStringSubmatch, findAllIndex, this]

set_option maxRecDepth 100000 in
/-- C4 (amended): for every target `t` without double quote, without line
feed and without the text `<w:instrText>`, the part that consists of the one
relationship element of type image with `Type` before `Target="t"` gives
exactly one finding, of the kind image (index 0), with the capture `t`; all
`checkFile` does for the text is to print it. -/
theorem image_element_one_finding (t : List Char) (hq : '"' ∉ t) (hn : '\n' ∉ t)
    (hi : ¬ "<w:instrText>".toList <:+: t) :
    findings regexesString (imageElement t) = [(0, [imageMatch t, t])] ∧
    ∀ (env : Env) (files : List (List Char)) (w : World),
      checkText env files regexesString (imageElement t) w =
        w.print ("Found image data: ".toList ++ t) := by
  have hA : imageElement t =
      "<Relationship Id=\"rId1\" Type=\"http://schemas.openxmlformats.org/officeDocument/2006/relationships/image\" Target=\"".toList ++
        (t ++ ['"', '/', '>']) := by
    simp [imageElement]
  have h0 : FindAllStringSubmatch reImage (imageElement t) = [[imageMatch t, t]] := by
    have := findAllIndex_relPattern
      "Type=\"http://schemas.openxmlformats.org/officeDocument/2006/relationships/image\""
      "<Relationship Id=\"rId1\"".toList t hq hn (by decide)
    have e1 : imageElement t = "<Relationship Id=\"rId1\"".toList ++ (' ' ::
        ("Type=\"http://schemas.openxmlformats.org/officeDocument/2006/relationships/image\"".toList ++
          (' ' :: ("Target=\"".toList ++ (t ++ "\"/>".toList))))) := by
      simp [imageElement]
    have e2 : imageMatch t = ' ' ::
        ("Type=\"http://schemas.openxmlformats.org/officeDocument/2006/relationships/image\"".toList ++
          (' ' :: ("Target=\"".toList ++ (t ++ "\"/>".toList)))) := by
      simp [imageMatch]
    rw [e1, e2]
    exact this
  have h1 : FindAllStringSubmatch reAudio (imageElement t) = [] := by
    rw [hA]
    exact findAll_none_of_quote reAudio _ _ t _ hq rfl (by decide) (by decide) (by decide)
  have h2 : FindAllStringSubmatch reHyperLink (imageElement t) = [] := by
    rw [hA]
    exact findAll_none_of_quote reHyperLink _ _ t _ hq rfl (by decide) (by decide) (by decide)
  have h3 : FindAllStringSubmatch reVba (imageElement t) = [] := by
    rw [hA]
    exact findAll_none_of_quote reVba _ _ t _ hq rfl (by decide) (by decide) (by decide)
  have h4 : FindAllStringSubmatch reBinaryData (imageElement t) = [] := by
    rw [hA]
    exact findAll_none_of_quote reBinaryData _ _ t _ hq rfl (by decide) (by decide) (by decide)
  have h5 : FindAllStringSubmatch reMacro (imageElement t) = [] := by
    rw [hA]
    exact findAll_none_of_quote reMacro _ _ t _ hq rfl (by decide) (by decide) (by decide)
  have h6 : FindAllStringSubmatch reDde1 (imageElement t) = [] := by
    rw [hA]
    exact findAll_none_of_quote reDde1 _ _ t _ hq rfl (by decide) (by decide) (by decide)
  have h7 : FindAllStringSubmatch reDde2 (imageElement t) = [] := by
    rw [hA]
    exact findAll_none_of_chars "<w:instrText>".toList _ _ t (by decide) hi (by decide) (by decide)
  have h8 : FindAllStringSubmatch reDde3 (imageElement t) = [] := by
    rw [hA]
    exact findAll_none_of_chars "<w:instrText>".toList _ _ t (by decide) hi (by decide) (by decide)
  have hf : findings regexesString (imageElement t) = [(0, [imageMatch t, t])] := by
    simp only [findings, regexesString, List.enum, List.enumFrom, List.flatMap_cons,
      List.flatMap_nil, h0, h1, h2, h3, h4, h5, h6, h7, h8, List.map_cons, List.map_nil,
      List.append_nil, List.singleton_append, List.nil_append]
  refine ⟨hf, fun env files w => ?_⟩
  rw [checkText_eq_foldl, hf]
  rfl

set_option maxRecDepth 100000 in
/-- C4 (witness): the target `media/image1.png`. -/
theorem image_element_one_finding_witness :
    '"' ∉ "media/image1.png".toList ∧ '\n' ∉ "media/image1.png".toList ∧
    ¬ "<w:instrText>".toList <:+: "media/image1.png".toList ∧
    findings regexesString (imageElement "media/image1.png".toList) =
      [(0, [imageMatch "media/image1.png".toList, "media/image1.png".toList])] :=
  ⟨by decide, by decide, by decide,
    (image_element_one_finding "media/image1.png".toList (by decide) (by decide) (by decide)).1⟩

set_option maxRecDepth 100000 in
/-- C4 (counterexample): the target `<w:instrText>DDE x/w:instrText>` has no
double quote and no line feed, and the part gives two findings: the image and
a DDE instruction (index 8) with the capture `DDE x`. -/
theorem image_element_two_findings :
    '"' ∉ instrTarget ∧ '\n' ∉ instrTarget ∧
    findings regexesString (imageElement instrTarget) =
      [(0, [imageMatch instrTarget, instrTarget]),
       (8, ["<w:instrText>DDE x/w:instrText>".toList, "DDE x".toList])] := by
  decide

/-! ### C7: the order of the attributes -/

theorem filter_tag (i j : Nat) (l : List (List (List Char))) :
    (l.map (fun m => (j, m))).filter (fun f => decide (f.1 = i)) =
      if j = i then l.map (fun m => (j, m)) else [] := by
  induction l with
  | nil => simp
  | cons m l ih =>
    by_cases h : j = i
    · simp only [List.map_cons, h, if_true] at ih ⊢
      rw [List.filter_cons_of_pos (by simp), ih]
    · simp only [List.map_cons, h, if_false] at ih ⊢
      rw [List.filter_cons_of_neg (by simp [h]), ih]

/-- The findings of a kind are the matches of the pattern with that index. -/
theorem findingsOfKind_eq (text : List Char) :
    findingsOfKind 0 text = (FindAllStringSubmatch reImage text).map (fun m => (0, m)) ∧
    findingsOfKind 1 text = (FindAllStringSubmatch reAudio text).map (fun m => (1, m)) ∧
    findingsOfKind 2 text = (FindAllStringSubmatch reHyperLink text).map (fun m => (2, m)) ∧
    findingsOfKind 3 text = (FindAllStringSubmatch reVba text).map (fun m => (3, m)) := by
  simp only [findingsOfKind, findings, regexesString, List.enum, List.enumFrom,
    List.flatMap_cons, List.flatMap_nil, List.filter_append, filter_tag, List.filter_nil]
  simp

/-- The two orders of the attributes for one type of relationship: one match
with the capture `t` when `Type` comes first, no match when `Target` comes
first. -/
theorem relPattern_order (type : String) (t : List Char) (hq : '"' ∉ t) (hn : '\n' ∉ t)
    (rest : Regex) (haq : afterQuote (relPattern type) = some rest)
    (hrest : accepts rest (' ' :: (type.toList ++ "/>".toList)) = false)
    (hP : ∀ i, i < "<Relationship Id=\"rId1\"".toList.length →
      mayMatch (relPattern type) ("<Relationship Id=\"rId1\"".toList.drop i) = false)
    (hA : ∀ i, i < "<Relationship Id=\"rId1\" Target=\"".toList.length →
      mayMatch (relPattern type) ("<Relationship Id=\"rId1\" Target=\"".toList.drop i) = false)
    (hB : ∀ i, i ≤ (' ' :: (type.toList ++ "/>".toList)).length + 1 →
      accepts (relPattern type) (('"' :: ' ' :: (type.toList ++ "/>".toList)).drop i) = false) :
    FindAllStringSubmatch (relPattern type) (relElement type t) = [[relTail type t, t]] ∧
    FindAllStringSubmatch (relPattern type) (relElementSwapped type t) = [] :=
  ⟨findAllIndex_relPattern type _ t hq hn hP,
    findAll_none_of_quote (relPattern type) rest _ t _ hq haq hrest hA hB⟩

set_option maxRecDepth 100000 in
/-- C7 (amended): the patterns depend on the order of the attributes.  For
every target `t` without double quote and line feed, and each of the types
image, audio, hyperlink and vbaProject: the relationship element with `Type`
written before `Target` gives exactly one finding of that kind, with the
capture `t`; the same element with `Target` written before `Type` gives no
finding of that kind. -/
theorem attribute_order_matters (t : List Char) (hq : '"' ∉ t) (hn : '\n' ∉ t) :
    (findingsOfKind 0 (relElement typeImage t) = [(0, [relTail typeImage t, t])] ∧
      findingsOfKind 0 (relElementSwapped typeImage t) = []) ∧
    (findingsOfKind 1 (relElement typeAudio t) = [(1, [relTail typeAudio t, t])] ∧
      findingsOfKind 1 (relElementSwapped typeAudio t) = []) ∧
    (findingsOfKind 2 (relElement typeHyperlink t) = [(2, [relTail typeHyperlink t, t])] ∧
      findingsOfKind 2 (relElementSwapped typeHyperlink t) = []) ∧
    (findingsOfKind 3 (relElement typeVba t) = [(3, [relTail typeVba t, t])] ∧
      findingsOfKind 3 (relElementSwapped typeVba t) = []) := by
  have h0 := relPattern_order typeImage t hq hn _ rfl (by decide) (by decide) (by decide)
    (by decide)
  have h1 := relPattern_order typeAudio t hq hn _ rfl (by decide) (by decide) (by decide)
    (by decide)
  have h2 := relPattern_order typeHyperlink t hq hn _ rfl (by decide) (by decide) (by decide)
    (by decide)
  have h3 := relPattern_order typeVba t hq hn _ rfl (by decide) (by decide) (by decide)
    (by decide)
  have e0 : reImage = relPattern typeImage := rfl
  have e1 : reAudio = relPattern typeAudio := rfl
  have e2 : reHyperLink = relPattern typeHyperlink := rfl
  have e3 : reVba = relPattern typeVba := rfl
  refine ⟨⟨?_, ?_⟩, ⟨?_, ?_⟩, ⟨?_, ?_⟩, ⟨?_, ?_⟩⟩
  · rw [(findingsOfKind_eq _).1, e0, h0.1]; rfl
  · rw [(findingsOfKind_eq _).1, e0, h0.2]; rfl
  · rw [(findingsOfKind_eq _).2.1, e1, h1.1]; rfl
  · rw [(findingsOfKind_eq _).2.1, e1, h1.2]; rfl
  · rw [(findingsOfKind_eq _).2.2.1, e2, h2.1]; rfl
  · rw [(findingsOfKind_eq _).2.2.1, e2, h2.2]; rfl
  · rw [(findingsOfKind_eq _).2.2.2, e3, h3.1]; rfl
  · rw [(findingsOfKind_eq _).2.2.2, e3, h3.2]; rfl

set_option maxRecDepth 100000 in
/-- C7 (witness): the target `media/image1.png`. -/
theorem attribute_order_matters_witness :
    '"' ∉ "media/image1.png".toList ∧ '\n' ∉ "media/image1.png".toList ∧
    findingsOfKind 0 (relElementSwapped typeImage "media/image1.png".toList) = [] :=
  ⟨by decide, by decide,
    (attribute_order_matters "media/image1.png".toList (by decide) (by decide)).1.2⟩

set_option maxRecDepth 100000 in
/-- C7 (counterexample): with the target `media/image1.png`, the element with
`Type` before `Target` gives the image finding, the element with `Target`
before `Type` gives no finding at all. -/
theorem swapped_attributes_not_found :
    findings regexesString (relElement typeImage "media/image1.png".toList) =
      [(0, [relTail typeImage "media/image1.png".toList, "media/image1.png".toList])] ∧
    findings regexesString (relElementSwapped typeImage "media/image1.png".toList) = [] := by
  decide

/-! ### What is printed stays printed -/

theorem PrintsMore.refl (w : World) : PrintsMore w w := ⟨[], by simp⟩

theorem PrintsMore.trans {a b c : World} (h1 : PrintsMore a b) (h2 : PrintsMore b c) :
    PrintsMore a c := by
  obtain ⟨x, hx⟩ := h1
  obtain ⟨y, hy⟩ := h2
  exact ⟨x ++ y, by rw [hy, hx, List.append_assoc]⟩

theorem PrintsMore.print (w : World) (s : List Char) : PrintsMore w (w.print s) :=
  ⟨[s], rfl⟩

theorem PrintsMore.mem {a b : World} (h : PrintsMore a b) {s : List Char} (hs : s ∈ a.out) :
    s ∈ b.out := by
  obtain ⟨x, hx⟩ := h
  rw [hx]
  exact List.mem_append_left _ hs

theorem PrintsMore.foldl {α : Type} (f : World → α → World)
    (hf : ∀ w a, PrintsMore w (f w a)) : ∀ (l : List α) (w : World), PrintsMore w (l.foldl f w)
  | [], w => PrintsMore.refl w
  | a :: l, w => (hf w a).trans (PrintsMore.foldl f hf l (f w a))

theorem extractEntry_prints (env : Env) (w : World) (e : Entry) :
    PrintsMore w (extractEntry env w e) := by
  unfold extractEntry WriteFile
  by_cases h1 : 0 < (e.Read 512).length
  · by_cases h2 : env.canWrite (oleFileName env e) = true
    · simp only [h1, h2, if_true]
      exact ⟨_, by simp only [World.print, List.append_assoc]; rfl⟩
    · simp only [h1, h2, if_true]
      exact PrintsMore.print _ _
  · simp only [h1, if_false]
    exact PrintsMore.print _ _

theorem extractOle_prints (env : Env) (filePath : List Char) (w : World) :
    PrintsMore w (extractOle env filePath w) := by
  unfold extractOle
  split
  · exact PrintsMore.print _ _
  · split
    · exact PrintsMore.print _ _
    · exact PrintsMore.foldl _ (extractEntry_prints env) _ _

theorem processOle_prints (env : Env) (files : List (List Char)) (fileName : List Char)
    (w : World) : PrintsMore w (processOle env files fileName w) := by
  unfold processOle
  apply PrintsMore.foldl
  intro w file
  split
  · exact PrintsMore.refl _
  · exact extractOle_prints env file w

theorem processBinaryData_prints (env : Env) (partName data : List Char) (w : World) :
    PrintsMore w (processBinaryData env partName data w) := by
  unfold processBinaryData WriteFile
  cases DecodeString data with
  | none => exact PrintsMore.print _ _
  | some temp =>
    by_cases h : env.canWrite (Join env.Output (env.RemoveIllegalPathCharacters partName)) = true
    · simp only [h, if_true]
      refine PrintsMore.trans ?_ (extractOle_prints env _ _)
      exact ⟨_, rfl⟩
    · simp only [h, if_false]
      exact PrintsMore.print _ _

theorem handleMatch_prints (env : Env) (files : List (List Char)) (i : Nat)
    (m : List (List Char)) (w : World) : PrintsMore w (handleMatch env files i m w) := by
  unfold handleMatch
  split
  · exact PrintsMore.print _ _
  · exact PrintsMore.print _ _
  · exact PrintsMore.print _ _
  · exact (PrintsMore.print _ _).trans (processOle_prints env files _ _)
  · exact (PrintsMore.print _ _).trans (processBinaryData_prints env _ _ _)
  · exact PrintsMore.print _ _
  · exact PrintsMore.print _ _
  · exact PrintsMore.print _ _
  · exact PrintsMore.print _ _
  · exact PrintsMore.refl _

/-- A DDE finding of form 2 among the findings of a text is printed by
`checkFile`, with its capture, and stays printed. -/
theorem dde2_finding_printed (env : Env) (files : List (List Char)) (text : List Char)
    (w : World) (whole cap : List Char)
    (h : (7, [whole, cap]) ∈ findings regexesString text) :
    "Found DDE data: ".toList ++ cap ∈ (checkText env files regexesString text w).out := by
  rw [checkText_eq_foldl]
  obtain ⟨l1, l2, hl⟩ := List.append_of_mem h
  rw [hl, List.foldl_append, List.foldl_cons]
  refine (PrintsMore.foldl _ (fun w f => handleMatch_prints env files f.1 f.2 w) l2 _).mem ?_
  simp [handleMatch, World.print]

/-! ### C5: the DDEAUTO field -/

theorem accepts_gopen (re : Regex) (s : List Char) : accepts (.gopen :: re) s = accepts re s := by
  simp only [accepts]

theorem accepts_gclose (re : Regex) (s : List Char) :
    accepts (.gclose :: re) s = accepts re s := by
  simp only [accepts]

theorem accepts_star (k : CharClass) (g : Bool) (re : Regex) (s : List Char) :
    accepts (.star k g :: re) s = acceptsStar k.test (accepts re) s := by
  simp only [accepts]

theorem accepts_cls_cons (k : CharClass) (re : Regex) (d : Char) (s : List Char) :
    accepts (.cls k :: re) (d :: s) = (k.test d && accepts re s) := by
  simp only [accepts]

theorem reDde2_eq :
    reDde2 = "<w:instrText>".toList.map .chr ++ (.gopen :: .star .dot false ::
      ("DDEAUTO".toList.map .chr ++ (.cls .space :: .star .dot false :: .gclose ::
        ("/w:instrText>".toList.map .chr ++ [])))) := by
  simp [reDde2, lit]

/-- The pattern `reDde2` is accepted at the start of a field whose
instruction text is on one line and holds `DDEAUTO` and a blank. -/
theorem accepts_reDde2_field (s1 s2 rest : List Char) (w : Char)
    (hw : CharClass.space.test w = true) (h1 : '\n' ∉ s1) (h2 : '\n' ∉ s2) :
    accepts reDde2 ("<w:instrText>".toList ++ ((s1 ++ ("DDEAUTO".toList ++ w :: s2)) ++
      ('<' :: ("/w:instrText>".toList ++ rest)))) = true := by
  have e : (s1 ++ ("DDEAUTO".toList ++ w :: s2)) ++ ('<' :: ("/w:instrText>".toList ++ rest)) =
      s1 ++ ("DDEAUTO".toList ++ (w :: ((s2 ++ ['<']) ++ ("/w:instrText>".toList ++ rest)))) := by
    simp
  rw [reDde2_eq, accepts_chars, e]
  have hp : "<w:instrText>".toList.isPrefixOf ("<w:instrText>".toList ++
      (s1 ++ ("DDEAUTO".toList ++ (w :: ((s2 ++ ['<']) ++ ("/w:instrText>".toList ++ rest)))))) =
      true := List.isPrefixOf_iff_prefix.mpr (List.prefix_append _ _)
  rw [hp, Bool.true_and, List.drop_left, accepts_gopen, accepts_star]
  apply acceptsStar_append _ _ _ _ s1 (dot_test_all h1)
  rw [accepts_chars]
  have hp2 : "DDEAUTO".toList.isPrefixOf ("DDEAUTO".toList ++
      (w :: ((s2 ++ ['<']) ++ ("/w:instrText>".toList ++ rest)))) = true :=
    List.isPrefixOf_iff_prefix.mpr (List.prefix_append _ _)
  rw [hp2, Bool.true_and, List.drop_left, accepts_cls_cons, hw, Bool.true_and, accepts_star]
  apply acceptsStar_append _ _ _ _ (s2 ++ ['<'])
  · intro c hc
    rcases List.mem_append.mp hc with hc | hc
    · exact dot_test_all h2 c hc
    · simp only [List.mem_singleton] at hc
      subst hc
      decide
  · rw [accepts_gclose, accepts_chars]
    have hp3 : "/w:instrText>".toList.isPrefixOf ("/w:instrText>".toList ++ rest) = true :=
      List.isPrefixOf_iff_prefix.mpr (List.prefix_append _ _)
    rw [hp3, Bool.true_and]
    simp [accepts]

/-- A match of `reDde2` at position `a`: its one group starts after the 13
characters of the opening text and ends where the closing text starts. -/
theorem run_reDde2_some (x : List Char) (a : Nat) (m : MatchEnd)
    (h : run reDde2 [] [] x a = some m) :
    ∃ n x4, m = (a + 13 + n + 13, [(a + 13, a + 13 + n)]) ∧
      x.drop (13 + n) = "/w:instrText>".toList ++ x4 := by
  rw [reDde2_eq] at h
  obtain ⟨x1, hx1, h⟩ := run_chars_some _ _ _ _ _ _ _ h
  rw [run_gopen, run_star_lazy] at h
  obtain ⟨n1, -, -, h⟩ := starLazy_some _ _ _ _ _ h
  obtain ⟨x2, hx2, h⟩ := run_chars_some _ _ _ _ _ _ _ h
  cases x2 with
  | nil => simp [run] at h
  | cons w x3 =>
    rw [run_cls_cons] at h
    split at h
    · rw [run_star_lazy] at h
      obtain ⟨n2, -, -, h⟩ := starLazy_some _ _ _ _ _ h
      rw [run_gclose] at h
      obtain ⟨x4, hx4, h⟩ := run_chars_some _ _ _ _ _ _ _ h
      rw [run_nil] at h
      refine ⟨n1 + 8 + n2, x4, ?_, ?_⟩
      · simp only [Option.some.injEq] at h
        rw [← h]
        simp
        omega
      · have e1 : x.drop 13 = x1 := by
          rw [hx1]
          exact List.drop_left "<w:instrText>".toList x1
        have e2 : x1.drop (n1 + 8) = x3 := by
          rw [← List.drop_drop, hx2]
          rfl
        rw [show 13 + (n1 + 8 + n2) = 13 + (n1 + 8) + n2 by omega, ← List.drop_drop,
          ← List.drop_drop, e1, e2, hx4]
    · cases h

theorem slice_infix (T : List Char) (a b c k : Nat) (hab : a ≤ b) (hbc : b + k ≤ c) :
    slice T b (b + k) <:+: slice T a c := by
  have e : slice T b (b + k) = ((slice T a c).drop (b - a)).take k := by
    simp only [slice, List.drop_take, List.drop_drop, List.take_take]
    rw [show a + (b - a) = b by omega, show b + k - b = k by omega,
      show min k (c - a - (b - a)) = k by omega]
  rw [e]
  exact List.IsInfix.trans (List.take_prefix _ _).isInfix (List.drop_suffix _ _).isInfix

/-- In a text `pre<w:instrText>s</w:instrText>post` whose `s` does not hold
the closing text `/w:instrText>`, an occurrence of the closing text lies
before the field or starts after `s`. -/
theorem close_occurrence (pre s post x4 : List Char) (q : Nat)
    (hc : ¬ "/w:instrText>".toList <:+: s)
    (h : (pre ++ ("<w:instrText>".toList ++ (s ++ ('<' :: ("/w:instrText>".toList ++ post))))).drop
      q = "/w:instrText>".toList ++ x4) :
    q + 13 ≤ pre.length ∨ pre.length + 13 + s.length ≤ q := by
  have hcl : ∀ i, i < 13 →
      (pre ++ ("<w:instrText>".toList ++ (s ++ ('<' :: ("/w:instrText>".toList ++ post)))))[q + i]? =
        "/w:instrText>".toList[i]? := by
    intro i hi
    rw [← List.getElem?_drop, h, List.getElem?_append_left (by simpa using hi)]
  have hlt : ∀ i, i < 13 → "/w:instrText>".toList[i]? ≠ some '<' := by decide
  have hop : ∀ j, j < 13 → "<w:instrText>".toList[j]? ≠ some '/' := by decide
  have hT1 : ∀ j,
      (pre ++ ("<w:instrText>".toList ++ (s ++ ('<' :: ("/w:instrText>".toList ++ post)))))[
        pre.length + j]? =
        ("<w:instrText>".toList ++ (s ++ ('<' :: ("/w:instrText>".toList ++ post))))[j]? := by
    intro j
    rw [List.getElem?_append_right (by omega)]
    congr 1
    omega
  have hT2 : ∀ j,
      ("<w:instrText>".toList ++ (s ++ ('<' :: ("/w:instrText>".toList ++ post))))[13 + j]? =
        (s ++ ('<' :: ("/w:instrText>".toList ++ post)))[j]? := by
    intro j
    rw [List.getElem?_append_right (by simp)]
    congr 1
    simp
  by_contra hcon
  have hq1 : pre.length < q + 13 := by omega
  have hq2 : q < pre.length + 13 + s.length := by omega
  by_cases c1 : q ≤ pre.length
  · have := hcl (pre.length - q) (by omega)
    rw [show q + (pre.length - q) = pre.length + 0 by omega, hT1] at this
    exact hlt _ (by omega) (this.symm.trans (by simp))
  · by_cases c2 : q < pre.length + 13
    · have := hcl 0 (by omega)
      rw [show q + 0 = pre.length + (q - pre.length) by omega, hT1,
        List.getElem?_append_left (by simp; omega)] at this
      exact hop _ (by omega) (this.trans (by simp))
    · by_cases c3 : q + 13 ≤ pre.length + 13 + s.length
      · apply hc
        have e : (pre ++ ("<w:instrText>".toList ++
            (s ++ ('<' :: ("/w:instrText>".toList ++ post))))).drop q =
            s.drop (q - pre.length - 13) ++ ('<' :: ("/w:instrText>".toList ++ post)) := by
          rw [List.drop_append_eq_append_drop, List.drop_of_length_le (by omega), List.nil_append,
            List.drop_append_eq_append_drop, List.drop_of_length_le (by simp; omega),
            List.nil_append, List.drop_append_of_le_length (by simp; omega)]
          simp
        rw [e] at h
        have hp1 : "/w:instrText>".toList <+:
            s.drop (q - pre.length - 13) ++ ('<' :: ("/w:instrText>".toList ++ post)) := by
          rw [h]
          exact List.prefix_append _ _
        have hp : "/w:instrText>".toList <+: s.drop (q - pre.length - 13) :=
          List.prefix_of_prefix_length_le hp1 (List.prefix_append _ _) (by simp; omega)
        exact List.IsInfix.trans hp.isInfix (List.drop_suffix _ _).isInfix
      · have := hcl (pre.length + 13 + s.length - q) (by omega)
        rw [show q + (pre.length + 13 + s.length - q) = pre.length + (13 + s.length) by omega,
          hT1, hT2, List.getElem?_append_right (by omega)] at this
        exact hlt _ (by omega) (this.symm.trans (by simp))

theorem mem_findings_dde2 (text : List Char) (m : List (List Char))
    (h : m ∈ FindAllStringSubmatch reDde2 text) : (7, m) ∈ findings regexesString text := by
  simp only [findings, regexesString, List.enum, List.enumFrom, List.flatMap_cons,
    List.flatMap_nil, List.mem_append, List.mem_map]
  simp [h]

/-- C5 (amended): for every instruction text `s` on one line that holds
`DDEAUTO` followed by a character of the class `\s` and does not hold the
text `/w:instrText>`, a part that contains `<w:instrText>s</w:instrText>`,
whatever comes before and after it, gives a DDE finding of form 2 (index 7)
whose capture contains `s` as a contiguous substring, and `checkFile` prints
that capture as DDE data. -/
theorem ddeauto_field_found (pre post s s1 s2 : List Char) (w : Char)
    (hs : s = s1 ++ ("DDEAUTO".toList ++ w :: s2)) (hw : CharClass.space.test w = true)
    (hn : '\n' ∉ s) (hc : ¬ "/w:instrText>".toList <:+: s) :
    ∃ whole cap, (7, [whole, cap]) ∈ findings regexesString (pre ++ instrField s ++ post) ∧
      s <:+: cap ∧
      ∀ (env : Env) (files : List (List Char)) (w : World),
        "Found DDE data: ".toList ++ cap ∈
          (checkText env files regexesString (pre ++ instrField s ++ post) w).out := by
  have hT : pre ++ instrField s ++ post =
      pre ++ ("<w:instrText>".toList ++ (s ++ ('<' :: ("/w:instrText>".toList ++ post)))) := by
    simp [instrField]
  rw [hT]
  obtain ⟨T, hTe⟩ : ∃ T, T = pre ++ ("<w:instrText>".toList ++
      (s ++ ('<' :: ("/w:instrText>".toList ++ post)))) := ⟨_, rfl⟩
  rw [← hTe]
  have hn1 : '\n' ∉ s1 := fun h => hn (by rw [hs]; exact List.mem_append_left _ h)
  have hn2 : '\n' ∉ s2 := fun h => hn (by
    rw [hs]
    exact List.mem_append_right _ (List.mem_append_right _ (List.mem_cons_of_mem _ h)))
  have hacc : accepts reDde2 (T.drop pre.length) = true := by
    rw [hTe, List.drop_left, hs]
    exact accepts_reDde2_field s1 s2 post w hw hn1 hn2
  obtain ⟨a, m, hmem, ha, hm⟩ := findAllIndex_complete reDde2 (by decide) T _ hacc
  obtain ⟨-, hrun⟩ := findAllIndex_sound reDde2 T a m hmem
  obtain ⟨n, x4, hm', hx4⟩ := run_reDde2_some _ a m hrun
  rw [List.drop_drop, hTe] at hx4
  have hocc := close_occurrence pre s post x4 _ hc hx4
  have hend : pre.length + 13 + s.length ≤ a + (13 + n) := by
    rw [hm'] at hm
    simp only at hm
    omega
  have hfind : (7, [slice T a m.1, slice T (a + 13) (a + 13 + n)]) ∈
      findings regexesString T := by
    apply mem_findings_dde2
    simp only [FindAllStringSubmatch, List.mem_map]
    refine ⟨(a, m), hmem, ?_⟩
    rw [hm']
    rfl
  refine ⟨slice T a m.1, slice T (a + 13) (a + 13 + n), hfind, ?_,
    fun env files w => dde2_finding_printed env files T w _ _ hfind⟩
  · have hsl : s = slice T (pre.length + 13) (pre.length + 13 + s.length) := by
      have := slice_middle (pre ++ "<w:instrText>".toList) s
        ('<' :: ("/w:instrText>".toList ++ post)) (pre.length + 13) (pre.length + 13 + s.length)
        (by simp) (by simp)
      rw [List.append_assoc] at this
      rw [hTe]
      exact this.symm
    have := slice_infix T (a + 13) (pre.length + 13) (a + 13 + n) s.length (by omega) (by omega)
    rw [← hsl] at this
    exact this

set_option maxRecDepth 100000 in
/-- C5 (witness): the instruction text
`DDEAUTO c:\\windows\\system32\\cmd.exe "/c calc.exe"` alone in a part. -/
theorem ddeauto_field_found_witness :
    CharClass.space.test ' ' = true ∧ '\n' ∉ calcInstr ∧
    ¬ "/w:instrText>".toList <:+: calcInstr ∧
    ∃ whole cap, (7, [whole, cap]) ∈ findings regexesString ([] ++ instrField calcInstr ++ []) ∧
      calcInstr <:+: cap ∧
      ∀ (env : Env) (files : List (List Char)) (w : World),
        "Found DDE data: ".toList ++ cap ∈
          (checkText env files regexesString ([] ++ instrField calcInstr ++ []) w).out :=
  ⟨by decide, by decide, by decide,
    ddeauto_field_found [] [] calcInstr [] "c:\\\\windows\\\\system32\\\\cmd.exe \"/c calc.exe\"".toList
      ' ' (by decide) (by decide) (by decide) (by decide)⟩

set_option maxRecDepth 100000 in
/-- C5 (counterexample): the instruction text `DDEAUTO a/w:instrText>b` is on
one line and holds `DDEAUTO` and a blank; the part with its field gives one
finding, whose capture `DDEAUTO a` does not contain the instruction text. -/
theorem ddeauto_capture_cut_short :
    '\n' ∉ instrWithClose ∧
    instrWithClose = [] ++ ("DDEAUTO".toList ++ ' ' :: "a/w:instrText>b".toList) ∧
    findings regexesString (instrField instrWithClose) =
      [(7, ["<w:instrText>DDEAUTO a/w:instrText>".toList, "DDEAUTO a".toList])] ∧
    ¬ instrWithClose <:+: "DDEAUTO a".toList := by
  decide

/-! ### C8: the file names of extracted streams -/

theorem read_written (env : Env) (w : World) (e : Entry)
    (hw : env.canWrite (oleFileName env e) = true) (he : 0 < (e.Read 512).length) :
    (extractEntry env w e).read (oleFileName env e) = some (e.Read 512) := by
  simp only [extractEntry, he, if_true, WriteFile, hw, World.print, World.read]
  simp

/-- The file name of an extracted stream is made of the output directory,
the constant prefix `ole_` and the sanitised entry name: two entries with the
same name get the same file name, and once the later one is written, in any
state of the run, the file holds the bytes of the later one. -/
theorem overwritten_by_same_name (env : Env) (a b : Entry) (h : a.Name = b.Name)
    (hw : env.canWrite (oleFileName env b) = true) (hb : 0 < (b.Read 512).length) :
    oleFileName env a = oleFileName env b ∧
    ∀ w : World, (extractEntry env w b).read (oleFileName env a) = some (b.Read 512) := by
  have e : oleFileName env a = oleFileName env b := by simp only [oleFileName, h]
  exact ⟨e, fun w => e ▸ read_written env w b hw hb⟩

/-- C8 (code bug): two streams named `dir`, with the bytes 1, 2, 3 and 9, 9,
are extracted, either as the entries of one compound file or from two
compound files one after the other.  Both are written under the one file name
`out/ole_dir`: `Wrote OLE file: out/ole_dir` is printed twice, every write of
the run goes to that path, the first stream is on disk after it is written,
and at the end the file holds the bytes of the second stream only.  The
streams are not written to separate files. -/
theorem later_stream_overwrites :
    dirA.Name = dirB.Name ∧ dirA.stream ≠ dirB.stream ∧
    oleFileName plainEnv dirA = "out/ole_dir".toList ∧
    oleFileName plainEnv dirB = "out/ole_dir".toList ∧
    World.read ([dirA].foldl (extractEntry plainEnv) ⟨[], []⟩) "out/ole_dir".toList =
      some [1, 2, 3] ∧
    World.read ([dirB].foldl (extractEntry plainEnv) ([dirA].foldl (extractEntry plainEnv) ⟨[], []⟩))
      "out/ole_dir".toList = some [9, 9] ∧
    World.read ([dirA, dirB].foldl (extractEntry plainEnv) ⟨[], []⟩) "out/ole_dir".toList =
      some [9, 9] ∧
    (([dirA, dirB].foldl (extractEntry plainEnv) ⟨[], []⟩).fs.all
      (fun f => f.1 = "out/ole_dir".toList)) = true ∧
    ([dirA, dirB].foldl (extractEntry plainEnv) ⟨[], []⟩).out =
      ["Wrote OLE file: out/ole_dir".toList, "Found OLE entry: dir".toList,
       "Wrote OLE file: out/ole_dir".toList, "Found OLE entry: dir".toList] := by
  decide

/-! ### C9: the sequence of findings -/

theorem findAllIndex_none_of_run (re : Regex) (text : List Char)
    (h : ∀ a, a ≤ text.length → run re [] [] (text.drop a) a = none) :
    findAllIndex re text = [] := by
  apply findAllFrom_none
  intro j
  have key : ∀ a, a ≤ text.length → accepts re (text.drop a) = false := by
    intro a ha
    have := run_isSome re [] [] (text.drop a) a
    rw [h a ha] at this
    simpa using this.symm
  by_cases hj : j ≤ text.length
  · exact key j hj
  · rw [List.drop_of_length_le (by omega)]
    have := key text.length (Nat.le_refl _)
    simpa using this

theorem regexes_start_with_char : ∀ re ∈ regexesString, startsWithChar re = true := by decide

/-- C9: for every file, what `checkFile` does is to handle, one after the
other, the findings of the text of the file; the findings are the matches of
the nine patterns in the order image, audio, hyperlink, VBA, binary data,
macro, DDE 1, DDE 2, DDE 3, each pattern contributing its successive
(leftmost, non-overlapping, left to right) matches in the text, every one of
them; the sequence is determined by the text, and it is empty, `checkFile`
only printing the name of the file, when no pattern matches anywhere. -/
theorem checkFile_findings (env : Env) (files : List (List Char))
    (outputPath filePath : List Char) (w : World) :
    checkFile env files outputPath filePath regexesString w =
      (findings regexesString (env.runes ((w.read filePath).getD []))).foldl
        (fun w f => handleMatch env files f.1 f.2 w)
        (w.print ("Checking file ".toList ++ filePath)) ∧
    (∀ text : List Char,
      findings regexesString text =
        tagged 0 reImage text ++ tagged 1 reAudio text ++ tagged 2 reHyperLink text ++
        tagged 3 reVba text ++ tagged 4 reBinaryData text ++ tagged 5 reMacro text ++
        tagged 6 reDde1 text ++ tagged 7 reDde2 text ++ tagged 8 reDde3 text) ∧
    (∀ text : List Char, ∀ re ∈ regexesString,
      FindAllStringSubmatch re text =
        (findAllIndex re text).map (fun am => submatch text am.1 am.2) ∧
      Successive re text 0 (findAllIndex re text)) ∧
    ((∀ re ∈ regexesString, ∀ a, a ≤ (env.runes ((w.read filePath).getD [])).length →
        run re [] [] ((env.runes ((w.read filePath).getD [])).drop a) a = none) →
      findings regexesString (env.runes ((w.read filePath).getD [])) = [] ∧
      checkFile env files outputPath filePath regexesString w =
        w.print ("Checking file ".toList ++ filePath)) := by
  have h1 : checkFile env files outputPath filePath regexesString w =
      (findings regexesString (env.runes ((w.read filePath).getD []))).foldl
        (fun w f => handleMatch env files f.1 f.2 w)
        (w.print ("Checking file ".toList ++ filePath)) := by
    simp only [checkFile]
    rw [checkText_eq_foldl]
    rfl
  have h2 : ∀ text : List Char,
      findings regexesString text =
        tagged 0 reImage text ++ tagged 1 reAudio text ++ tagged 2 reHyperLink text ++
        tagged 3 reVba text ++ tagged 4 reBinaryData text ++ tagged 5 reMacro text ++
        tagged 6 reDde1 text ++ tagged 7 reDde2 text ++ tagged 8 reDde3 text := by
    intro text
    simp only [findings, regexesString, List.enum, List.enumFrom, List.flatMap_cons,
      List.flatMap_nil, tagged, List.append_nil, List.append_assoc]
  refine ⟨h1, h2, fun text re hre => ⟨rfl,
    findAllIndex_successive re (regexes_start_with_char re hre) text⟩, fun hnone => ?_⟩
  have hall : ∀ re ∈ regexesString,
      FindAllStringSubmatch re (env.runes ((w.read filePath).getD [])) = [] := by
    intro re hre
    simp only [FindAllStringSubmatch, findAllIndex_none_of_run re _ (hnone re hre), List.map_nil]
  have hf : findings regexesString (env.runes ((w.read filePath).getD [])) = [] := by
    rw [h2]
    simp only [tagged, hall reImage (by simp [regexesString]),
      hall reAudio (by simp [regexesString]), hall reHyperLink (by simp [regexesString]),
      hall reVba (by simp [regexesString]), hall reBinaryData (by simp [regexesString]),
      hall reMacro (by simp [regexesString]), hall reDde1 (by simp [regexesString]),
      hall reDde2 (by simp [regexesString]), hall reDde3 (by simp [regexesString]),
      List.map_nil, List.append_nil]
  refine ⟨hf, ?_⟩
  rw [h1, hf]
  rfl

end OoxmlChecker
